import Mathlib

/-!
Verification development for `import/hgnc_families.py` (famplex repository).

The script flattens HGNC gene-family hierarchies into "isa" relations,
filters pseudogenes, detects redundancy against the pre-existing
`relations.csv` store, and appends sorted relations / entities /
equivalences.  Below, each Python function is embedded as an executable
Lean definition over `List Char` / `String` data:

* strings are Lean `String`s (code-point lists, matching CPython `str`
  comparison by code points);
* the CSV rows and in-memory indexes are explicit lists and functions;
* fallible Python code (KeyError, TypeError, ValueError) is embedded with
  `Except`;
* CPython's unspecified `set`/`dict`-hash iteration order is modelled by
  quantifying over an arbitrary enumeration of the set, constrained to be
  duplicate-free and to have exactly the set's members.
-/

/-- Python `str` comparison `<` is lexicographic on code points.  Strict
lexicographic order on the underlying code-point lists. -/
def charListLt : List Char → List Char → Bool
  | [], [] => false
  | [], _ :: _ => true
  | _ :: _, [] => false
  | a :: as, b :: bs =>
    decide (a.toNat < b.toNat) || (a.toNat == b.toNat && charListLt as bs)

/-- Python string `<` on `String`. -/
def strLt (a b : String) : Bool := charListLt a.data b.data

/-- Python whitespace test used by `str.strip` (modelled by Lean's
`Char.isWhitespace`, which covers the ASCII whitespace seen in the data). -/
def pyIsSpace (c : Char) : Bool := c.isWhitespace

/-- Python `str.strip()`: drop leading and trailing whitespace. -/
def pyStrip (s : List Char) : List Char :=
  ((s.dropWhile pyIsSpace).reverse.dropWhile pyIsSpace).reverse

/-- Does `s` start with `pat`? -/
def startsWithL : List Char → List Char → Bool
  | _, [] => true
  | [], _ :: _ => false
  | c :: s, p :: ps => c == p && startsWithL s ps

/-- Python `str.replace(pat, sub)` scan, structurally recursive on a fuel
argument so that it evaluates by reduction; each step consumes at least
one character, so fuel equal to the string length suffices. -/
def pyReplaceAux (pat sub : List Char) : Nat → List Char → List Char
  | 0, s => s
  | _ + 1, [] => []
  | fuel + 1, c :: rest =>
    if pat ≠ [] ∧ startsWithL (c :: rest) pat = true then
      sub ++ pyReplaceAux pat sub fuel ((c :: rest).drop pat.length)
    else
      c :: pyReplaceAux pat sub fuel rest

/-- Python `str.replace(pat, sub)`: scan left to right, replacing each
non-overlapping occurrence of `pat` by `sub` and continuing after it.
All patterns used by the script are non-empty; for an empty pattern the
scan just keeps the string (the script never calls it that way). -/
def pyReplace (pat sub : List Char) (s : List Char) : List Char :=
  pyReplaceAux pat sub s.length s

/-- `re.match(r'^.*\d+P$', s)` from `is_pseudogene`, matching the tail
`\d+P$` at the current position: one or more digits, a literal `P`, then
the end of the string — where Python's `$` also matches just before one
final newline.  `\d` is modelled as the ASCII decimal digits (the inputs
are ASCII gene symbols). -/
def matchDigitsPEnd : List Char → Bool
  | [] => false
  | c :: rest =>
    c.isDigit &&
      (rest = ['P'] || rest = ['P', '\n'] || matchDigitsPEnd rest)

/-- `re.match(r'^.*\d+P$', s)`: try `\d+P$` at the current position,
otherwise let `.` consume one non-newline character and continue (`.`
does not match a newline without `re.DOTALL`). -/
def reMatchPseudo : List Char → Bool
  | [] => false
  | c :: rest =>
    matchDigitsPEnd (c :: rest) || (decide (c ≠ '\n') && reMatchPseudo rest)

/-- `is_pseudogene(gene)` from `hgnc_families.py`:
`re.match(r'^.*\d+P$', gene) is not None`. -/
def is_pseudogene (gene : String) : Bool := reMatchPseudo gene.data

/-- An HGNC family metadata record as consumed by `get_famplex_id`: of the
row dict built by `_read_family_info`, only the `abbreviation` and `name`
fields are ever read by the core. -/
structure Family where
  abbreviation : String
  name : String
deriving DecidableEq, Repr

/-- `get_famplex_id(family)` from `hgnc_families.py`: if the
`abbreviation` field is non-empty (Python truthiness), return it stripped
with every `", "` replaced by `"_"`; otherwise take the stripped `name`
and apply, in dict-insertion order, `" "→"_"`, `"-"→"_"`, `","→""`. -/
def get_famplex_id (family : Family) : String :=
  if family.abbreviation.data ≠ [] then
    ⟨pyReplace [',', ' '] ['_'] (pyStrip family.abbreviation.data)⟩
  else
    ⟨pyReplace [','] []
      (pyReplace ['-'] ['_']
        (pyReplace [' '] ['_'] (pyStrip family.name.data)))⟩

example : is_pseudogene "ABC1P" = true := by decide

example : is_pseudogene "ABC1" = false := by decide

example : is_pseudogene "P" = false := by decide

example : is_pseudogene "1P" = true := by decide

example : get_famplex_id ⟨"", "Foo Bar, Baz"⟩ = "Foo_Bar_Baz" := by decide

example : get_famplex_id ⟨"A, B", ""⟩ = "A_B" := by decide

/-- A derived relation: the 6-tuple
`(src namespace, src id, 'isa', tgt namespace, tgt id, root id)` built by
`get_relations_from_root`.  The final field is the originating root,
kept for provenance and dropped when the row is persisted. -/
structure RelTuple where
  srcNs : String
  srcId : String
  kind : String
  tgtNs : String
  tgtId : String
  rootId : String
deriving DecidableEq, Repr

/-- The in-memory state the script builds at import time, plus the
external name-resolution collaborator:

* `families` — the dict built by `_read_family_info` (plain dict:
  a missing key raises `KeyError`);
* `children` — the dict built by `_read_hierarchy_info`, always accessed
  through `.get`, hence `Option` (no default-insertion on read);
* `familyToGene` — the `defaultdict(list)` built by
  `_read_hgnc_family_genes`: a missing key yields `[]`;
* `getName` — `hgnc_client.get_hgnc_name`, which returns `None` when the
  gene id has no resolvable display name. -/
structure Env where
  families : String → Option Family
  children : String → Option (List String)
  familyToGene : String → List String
  getName : String → Option String

/-- The ways a run of the script can abort: a dict lookup on a missing
key (`KeyError`), passing `None` to `re.match` (`TypeError`), a failed
`int(...)` or tuple unpacking (`ValueError`), indexing an empty row
(`IndexError`), and exhaustion of the recursion fuel that models the
unguarded recursion depth of `get_relations_from_root`. -/
inductive RunError where
  | keyError (id : String)
  | typeError (gene : String)
  | valueError (msg : String)
  | indexError (msg : String)
  | outOfFuel
deriving DecidableEq, Repr

/-- The direct-gene-members loop of `get_relations_from_root`
(lines 92–98): resolve each gene's display name, skip pseudogenes with a
warning, append `('HGNC', name, 'isa', 'FPLX', famplex_id, root_id)`
otherwise.  A `None` name is passed straight to `is_pseudogene`, i.e.
`re.match`, which raises `TypeError`. -/
def processGenes (env : Env) (famplexId rootId : String) :
    List String → List RelTuple → Except RunError (List RelTuple)
  | [], rels => .ok rels
  | g :: gs, rels =>
    match env.getName g with
    | none => .error (.typeError g)
    | some gname =>
      if is_pseudogene gname then
        processGenes env famplexId rootId gs rels
      else
        processGenes env famplexId rootId gs
          (rels ++ [⟨"HGNC", gname, "isa", "FPLX", famplexId, rootId⟩])

/-- Python truthiness of `children.get(child_id)`: `None` and the empty
list are both falsy. -/
def optListFalsy : Option (List String) → Bool
  | none => true
  | some [] => true
  | some (_ :: _) => false

/-- The child-families loop of `get_relations_from_root` (lines 101–127).
`recurse` is the recursive call at line 127; it is passed in so that the
definition is structurally recursive (the list argument shrinks here, the
fuel shrinks in `get_relations_from_root`).  Collapse branch: a child
with falsy grandchildren and exactly one member gene contributes that
gene directly to the current family (skipping pseudogenes).  Recurse
branch: emit an FPLX-to-FPLX edge (after a `families[child_id]` lookup
that can raise `KeyError`) and recurse into the child. -/
def processChildren (env : Env)
    (recurse : String → List RelTuple → Except RunError (List RelTuple))
    (famplexId rootId : String) :
    List String → List RelTuple → Except RunError (List RelTuple)
  | [], rels => .ok rels
  | c :: cs, rels =>
    match optListFalsy (env.children c), env.familyToGene c with
    | true, [g] =>
      match env.getName g with
      | none => .error (.typeError g)
      | some gname =>
        if is_pseudogene gname then
          processChildren env recurse famplexId rootId cs rels
        else
          processChildren env recurse famplexId rootId cs
            (rels ++ [⟨"HGNC", gname, "isa", "FPLX", famplexId, rootId⟩])
    | _, _ =>
      match env.families c with
      | none => .error (.keyError c)
      | some childInfo =>
        match recurse c
            (rels ++ [⟨"FPLX", get_famplex_id childInfo, "isa", "FPLX",
                       famplexId, rootId⟩]) with
        | .error e => .error e
        | .ok rels2 => processChildren env recurse famplexId rootId cs rels2

/-- `get_relations_from_root(root_id, relations)` (lines 83–128).  The
fuel bounds the recursion depth; the Python code has no cycle guard, so a
cyclic hierarchy exhausts any fuel (modelling the unbounded recursion).
`families[root_id]` raises `KeyError` when the root has no metadata
record; `family_to_gene` is a defaultdict and never raises. -/
def get_relations_from_root (env : Env) :
    Nat → String → List RelTuple → Except RunError (List RelTuple)
  | 0, _, _ => .error .outOfFuel
  | fuel + 1, rootId, relations =>
    match env.families rootId with
    | none => .error (.keyError rootId)
    | some familyInfo =>
      let famplexId := get_famplex_id familyInfo
      match processGenes env famplexId rootId
          (env.familyToGene rootId) relations with
      | .error e => .error e
      | .ok rels1 =>
        match env.children rootId with
        | none => .ok rels1
        | some cids =>
          processChildren env (get_relations_from_root env fuel)
            famplexId rootId cids rels1

/-- Row consumption shared by `_read_hgnc_family_genes` (line 34) and
`_read_hierarchy_info` (line 54): each CSV row is tuple-unpacked into
exactly two variables, so a row whose length is not 2 raises
`ValueError` immediately (fail fast, nothing of that row is kept). -/
def readPairRows : List (List String) → Except RunError (List (String × String))
  | [] => .ok []
  | row :: rest =>
    match row with
    | [a, b] =>
      match readPairRows rest with
      | .error e => .error e
      | .ok l => .ok ((a, b) :: l)
    | _ => .error (.valueError "unpack")

/-- `_read_hgnc_family_genes` (lines 30–37), modelled as the sequence of
`(gene_id, family_id)` pairs it consumes; the two defaultdicts are the
evident aggregations of this list.  No header row is skipped. -/
def read_hgnc_family_genes (rows : List (List String)) :
    Except RunError (List (String × String)) :=
  readPairRows rows

/-- `_read_hierarchy_info` (lines 51–58): every row, including the
header, is tuple-unpacked into `(parent, child)` (so a malformed header
also raises), and the first row is then skipped. -/
def read_hierarchy_info (rows : List (List String)) :
    Except RunError (List (String × String)) :=
  match readPairRows rows with
  | .error e => .error e
  | .ok l => .ok (l.drop 1)

/-- The body of the row loop of `_read_family_info` (line 47):
`families[row[0]] = {k: v for k, v in zip(header, row)}`.  `row[0]`
raises `IndexError` on an empty row; otherwise `zip` silently truncates
to the shorter of header and row. -/
def familyRowEntry (header row : List String) :
    Except RunError (String × List (String × String)) :=
  match row with
  | [] => .error (.indexError "row[0]")
  | r0 :: _ => .ok (r0, header.zip row)

/-- `_read_family_info` (lines 40–48): the first row is the header; each
later row is stored under its first field with the field dict given by
`zip(header, row)` (later duplicate keys overwrite earlier ones in the
Python dict; the entries are kept here in row order). -/
def read_family_info (rows : List (List String)) :
    Except RunError (List (String × List (String × String))) :=
  match rows with
  | [] => .ok []
  | header :: rest => go header rest
where
  go (header : List String) :
      List (List String) → Except RunError (List (String × List (String × String)))
    | [] => .ok []
    | row :: rest =>
      match familyRowEntry header row with
      | .error e => .error e
      | .ok entry =>
        match go header rest with
        | .error e => .error e
        | .ok l => .ok (entry :: l)

theorem charEq_of_toNat_eq {c d : Char} (h : c.toNat = d.toNat) : c = d := by
  rw [← Char.ofNat_toNat c, ← Char.ofNat_toNat d, h]

theorem charListLt_trans :
    ∀ a b c : List Char, charListLt a b = true → charListLt b c = true →
      charListLt a c = true := by
  intro a
  induction a with
  | nil =>
    intro b c hab hbc
    cases b <;> cases c <;> simp_all [charListLt]
  | cons x xs ih =>
    intro b c hab hbc
    cases b with
    | nil => simp [charListLt] at hab
    | cons y ys =>
      cases c with
      | nil => simp [charListLt] at hbc
      | cons z zs =>
        simp only [charListLt, Bool.or_eq_true, Bool.and_eq_true,
          decide_eq_true_eq, beq_iff_eq] at hab hbc ⊢
        rcases hab with h1 | ⟨he1, h1⟩ <;> rcases hbc with h2 | ⟨he2, h2⟩
        · exact Or.inl (by omega)
        · exact Or.inl (by omega)
        · exact Or.inl (by omega)
        · exact Or.inr ⟨by omega, ih ys zs h1 h2⟩

theorem charListLt_asymm :
    ∀ a b : List Char, charListLt a b = true → charListLt b a = true → False := by
  intro a
  induction a with
  | nil => intro b hab hba; cases b <;> simp_all [charListLt]
  | cons x xs ih =>
    intro b hab hba
    cases b with
    | nil => simp [charListLt] at hab
    | cons y ys =>
      simp only [charListLt, Bool.or_eq_true, Bool.and_eq_true,
        decide_eq_true_eq, beq_iff_eq] at hab hba
      rcases hab with h1 | ⟨he1, h1⟩ <;> rcases hba with h2 | ⟨he2, h2⟩
      · omega
      · omega
      · omega
      · exact ih ys h1 h2

theorem charListLt_conn :
    ∀ a b : List Char, charListLt a b = false → charListLt b a = false → a = b := by
  intro a
  induction a with
  | nil => intro b hab _; cases b <;> simp_all [charListLt]
  | cons x xs ih =>
    intro b hab hba
    cases b with
    | nil => simp [charListLt] at hba
    | cons y ys =>
      simp only [charListLt, Bool.or_eq_false_iff, Bool.and_eq_false_iff,
        decide_eq_false_iff_not, beq_eq_false_iff_ne, ne_eq] at hab hba
      obtain ⟨hxy, hrest⟩ := hab
      obtain ⟨hyx, hrest'⟩ := hba
      have hEq : x.toNat = y.toNat := by omega
      rcases hrest with hne | htail
      · exact absurd hEq hne
      · rcases hrest' with hne' | htail'
        · exact absurd hEq.symm hne'
        · rw [charEq_of_toNat_eq hEq, ih ys htail htail']

theorem charListLt_irrefl : ∀ a : List Char, charListLt a a = false := by
  intro a
  induction a with
  | nil => rfl
  | cons x xs ih => simp [charListLt, ih]

theorem strEq_of_data_eq {a b : String} (h : a.data = b.data) : a = b := by
  cases a; cases b; exact congrArg String.mk h

/-- Python string `<=` (used to state sortedness of string sorts). -/
def strLeB (a b : String) : Bool := strLt a b || a.data == b.data

/-- `strLeB` as a relation for `List.insertionSort`. -/
def strLeP (a b : String) : Prop := strLeB a b = true

instance : DecidableRel strLeP := fun a b =>
  inferInstanceAs (Decidable (strLeB a b = true))

theorem strLeP_total : ∀ a b : String, strLeP a b ∨ strLeP b a := by
  intro a b
  simp only [strLeP, strLeB, strLt, Bool.or_eq_true, beq_iff_eq]
  rcases h1 : charListLt a.data b.data with _ | _
  · rcases h2 : charListLt b.data a.data with _ | _
    · exact Or.inl (Or.inr (charListLt_conn _ _ h1 h2))
    · exact Or.inr (Or.inl rfl)
  · exact Or.inl (Or.inl rfl)

theorem strLeP_trans : ∀ a b c : String, strLeP a b → strLeP b c → strLeP a c := by
  intro a b c hab hbc
  simp only [strLeP, strLeB, strLt, Bool.or_eq_true, beq_iff_eq] at hab hbc ⊢
  rcases hab with h1 | h1 <;> rcases hbc with h2 | h2
  · exact Or.inl (charListLt_trans _ _ _ h1 h2)
  · exact Or.inl (h2 ▸ h1)
  · exact Or.inl (h1 ▸ h2)
  · exact Or.inr (h1.trans h2)

theorem strLeP_antisymm : ∀ a b : String, strLeP a b → strLeP b a → a = b := by
  intro a b hab hba
  simp only [strLeP, strLeB, strLt, Bool.or_eq_true, beq_iff_eq] at hab hba
  rcases hab with h1 | h1
  · rcases hba with h2 | h2
    · exact (charListLt_asymm _ _ h1 h2).elim
    · exact (strEq_of_data_eq h2).symm
  · exact strEq_of_data_eq h1

instance : IsTotal String strLeP := ⟨strLeP_total⟩

instance : IsTrans String strLeP := ⟨strLeP_trans⟩

/-- The sort key of line 219: `(x[4], x[1])`, i.e. (target id, source id). -/
def relKey (r : RelTuple) : String × String := (r.tgtId, r.srcId)

/-- Python tuple comparison `<=` of two `(String, String)` keys:
lexicographic, with string comparison by code points. -/
def pairLeB (a b : String × String) : Bool :=
  strLt a.1 b.1 || (a.1.data == b.1.data && strLeB a.2 b.2)

/-- Ascending order on relation tuples by `(target id, source id)`,
the comparison performed by `sorted(..., key=lambda x: (x[4], x[1]))`. -/
def relLe (a b : RelTuple) : Prop := pairLeB (relKey a) (relKey b) = true

instance : DecidableRel relLe := fun a b =>
  inferInstanceAs (Decidable (pairLeB (relKey a) (relKey b) = true))

theorem pairLeB_total : ∀ a b : String × String,
    pairLeB a b = true ∨ pairLeB b a = true := by
  intro a b
  simp only [pairLeB, strLt, Bool.or_eq_true, Bool.and_eq_true, beq_iff_eq]
  rcases h1 : charListLt a.1.data b.1.data with _ | _
  · rcases h2 : charListLt b.1.data a.1.data with _ | _
    · have hEq := charListLt_conn _ _ h1 h2
      rcases strLeP_total a.2 b.2 with h | h
      · exact Or.inl (Or.inr ⟨hEq, h⟩)
      · exact Or.inr (Or.inr ⟨hEq.symm, h⟩)
    · exact Or.inr (Or.inl rfl)
  · exact Or.inl (Or.inl rfl)

theorem pairLeB_trans : ∀ a b c : String × String,
    pairLeB a b = true → pairLeB b c = true → pairLeB a c = true := by
  intro a b c hab hbc
  simp only [pairLeB, strLt, Bool.or_eq_true, Bool.and_eq_true, beq_iff_eq] at hab hbc ⊢
  rcases hab with h1 | ⟨he1, h1⟩ <;> rcases hbc with h2 | ⟨he2, h2⟩
  · exact Or.inl (charListLt_trans _ _ _ h1 h2)
  · exact Or.inl (he2 ▸ h1)
  · exact Or.inl (he1 ▸ h2)
  · exact Or.inr ⟨he1.trans he2, strLeP_trans _ _ _ h1 h2⟩

theorem pairLeB_antisymm : ∀ a b : String × String,
    pairLeB a b = true → pairLeB b a = true → a = b := by
  intro a b hab hba
  simp only [pairLeB, strLt, Bool.or_eq_true, Bool.and_eq_true, beq_iff_eq] at hab hba
  rcases hab with h1 | ⟨he1, h1⟩
  · rcases hba with h2 | ⟨he2, h2⟩
    · exact (charListLt_asymm _ _ h1 h2).elim
    · rw [he2, charListLt_irrefl] at h1
      exact Bool.noConfusion h1
  · rcases hba with h2 | ⟨he2, h2⟩
    · rw [he1, charListLt_irrefl] at h2
      exact Bool.noConfusion h2
    · have k1 : a.1 = b.1 := strEq_of_data_eq he1
      have k2 : a.2 = b.2 := strLeP_antisymm _ _ h1 h2
      exact Prod.ext k1 k2

instance : IsTotal RelTuple relLe := ⟨fun a b => pairLeB_total (relKey a) (relKey b)⟩

instance : IsTrans RelTuple relLe :=
  ⟨fun _ _ _ hab hbc => pairLeB_trans _ _ _ hab hbc⟩

/-- Two lists that are permutations of each other and both sorted under
`r` coincide, provided `r` is antisymmetric on the elements actually in
the list.  This is the uniqueness fact behind "deterministic sort
order": it does not require global antisymmetry, so it applies to sorts
keyed on a projection. -/
theorem eq_of_perm_of_pairwise_of_antisymmOn {α : Type} {r : α → α → Prop} :
    ∀ l1 l2 : List α, List.Perm l1 l2 → l1.Pairwise r → l2.Pairwise r →
      (∀ a ∈ l1, ∀ b ∈ l1, r a b → r b a → a = b) → l1 = l2 := by
  intro l1
  induction l1 with
  | nil =>
    intro l2 hp _ _ _
    exact (hp.symm.eq_nil).symm
  | cons a t1 ih =>
    intro l2 hp h1 h2 hanti
    cases l2 with
    | nil => exact absurd hp.eq_nil (by simp)
    | cons b t2 =>
      have hab : a = b := by
        by_cases heq : a = b
        · exact heq
        · have hbmem : b ∈ a :: t1 := hp.symm.subset (List.mem_cons_self b t2)
          have hbt1 : b ∈ t1 := by
            cases List.mem_cons.mp hbmem with
            | inl h => exact absurd h.symm heq
            | inr h => exact h
          have hamem : a ∈ b :: t2 := hp.subset (List.mem_cons_self a t1)
          have hat2 : a ∈ t2 := by
            cases List.mem_cons.mp hamem with
            | inl h => exact absurd h heq
            | inr h => exact h
          have hr1 : r a b := (List.pairwise_cons.mp h1).1 b hbt1
          have hr2 : r b a := (List.pairwise_cons.mp h2).1 a hat2
          exact hanti a (List.mem_cons_self a t1) b (List.mem_cons_of_mem a hbt1)
            hr1 hr2
      subst hab
      have htail : List.Perm t1 t2 := hp.cons_inv
      have heq := ih t2 htail (List.pairwise_cons.mp h1).2 (List.pairwise_cons.mp h2).2
        (fun x hx y hy hxy hyx =>
          hanti x (List.mem_cons_of_mem a hx) y (List.mem_cons_of_mem a hy) hxy hyx)
      rw [heq]

/-- `enum` is a valid iteration order of the Python set whose members are
the members of `source`: duplicate-free and with exactly the members of
`source`.  CPython's hash-based iteration order is otherwise arbitrary,
so theorems quantify over every `enum` satisfying this predicate. -/
def isSetEnum {α : Type} [DecidableEq α] (enum source : List α) : Bool :=
  decide enum.Nodup && enum.all (fun a => decide (a ∈ source)) &&
    source.all (fun a => decide (a ∈ enum))

theorem isSetEnum_spec {α : Type} [DecidableEq α] {enum source : List α}
    (h : isSetEnum enum source = true) :
    enum.Nodup ∧ ∀ a, a ∈ enum ↔ a ∈ source := by
  simp only [isSetEnum, Bool.and_eq_true, List.all_eq_true, decide_eq_true_eq] at h
  exact ⟨h.1.1, fun a => ⟨fun ha => h.1.2 a ha, fun ha => h.2 a ha⟩⟩

/-- A row of the persisted `relations.csv` store, as read back by
`find_overlaps` (line 174): `(sns, sid, rel, tns, tid)`. -/
structure StoreRow where
  sns : String
  sid : String
  kind : String
  tns : String
  tid : String
deriving DecidableEq, Repr

/-- Insertion into a Python dict modelled as an association list in
first-insertion key order: a repeated key overwrites the value in place,
a new key is appended. -/
def dictInsert (d : List (String × String)) (k v : String) :
    List (String × String) :=
  if d.any (fun p => p.1 == k) then
    d.map (fun p => if p.1 == k then (k, v) else p)
  else
    d ++ [(k, v)]

/-- Python dict lookup. -/
def dictLookup (d : List (String × String)) (k : String) : Option String :=
  (d.find? (fun p => p.1 == k)).map (fun p => p.2)

/-- `all_gene_names = {r[1]: r[4] for r in relations if r[0] == 'HGNC'}`
(line 165): for each HGNC-sourced relation, gene name ↦ derived family
id; a gene appearing in several relations keeps the last value. -/
def all_gene_names (relations : List RelTuple) : List (String × String) :=
  relations.foldl
    (fun d r => if r.srcNs == "HGNC" then dictInsert d r.srcId r.tgtId else d) []

/-- One pass of the store scan (lines 173–181), restricted to what the
rest of `find_overlaps` consumes: `fam_members[tid]` collects the HGNC
source ids of store rows with target namespace FPLX and target id `tid`. -/
def fam_members (store : List StoreRow) (tid : String) : List String :=
  (store.filter (fun q => q.sns == "HGNC" && q.tns == "FPLX" && q.tid == tid)).map
    (fun q => q.sid)

/-- The `covered_families` accumulation of the store scan (line 180), as
the list of target ids added in scan order (the set it builds has exactly
these members): rows whose source namespace is HGNC and whose source id
is a key of `all_gene_names` — note no target-namespace test here. -/
def coveredFamiliesScan (agn : List (String × String))
    (store : List StoreRow) : List String :=
  (store.filter (fun q => q.sns == "HGNC" && (dictLookup agn q.sid).isSome)).map
    (fun q => q.tid)

/-- The `hgnc_families` accumulation of the store scan (line 181):
`all_gene_names[sid]` for each covered row, in scan order. -/
def hgncFamiliesScan (agn : List (String × String))
    (store : List StoreRow) : List String :=
  (store.filter (fun q => q.sns == "HGNC" && (dictLookup agn q.sid).isSome)).map
    (fun q => (dictLookup agn q.sid).getD "")

/-- `set(g for g, f in all_gene_names.items() if f == hgnc_fam)`
(lines 192–193): members of a derived family, computed from the current
run's relations via the `all_gene_names` dict (keys are distinct, so the
list is already duplicate-free). -/
def hgnc_members (agn : List (String × String)) (fam : String) : List String :=
  (agn.filter (fun p => p.2 == fam)).map (fun p => p.1)

/-- Python `set(a) == set(b)` for lists of strings. -/
def listSetEq (a b : List String) : Bool :=
  a.all (fun x => decide (x ∈ b)) && b.all (fun x => decide (x ∈ a))

/-- `sorted(items, key=lambda x: list(x[1])[0])` (lines 187–188 and
194–195): a stable sort of `(family, member set)` pairs keyed by one
representative member of the set.  `list(s)[0]` picks a hash-order-first
element of the set; `rep` models that unspecified choice, keyed by the
family id (theorems constrain `rep f` to be a member of `f`'s set). -/
def sortByRep (rep : String → String) (l : List (String × List String)) :
    List (String × List String) :=
  @List.insertionSort _ (fun a b => strLeB (rep a.1) (rep b.1) = true)
    (fun a b => inferInstanceAs (Decidable (strLeB (rep a.1) (rep b.1) = true))) l

/-- `sorted(fplx_fam_members.items(), key=...)` (lines 183–188): the
touched pre-existing families (iterated in the set order `enumCov`),
each with its member set from the store, sorted by representative. -/
def sortedFplxPairs (store : List StoreRow) (enumCov : List String)
    (repF : String → String) : List (String × List String) :=
  sortByRep repF (enumCov.map (fun t => (t, fam_members store t)))

/-- `sorted(hgnc_fam_members.items(), key=...)` (lines 190–195): the
touched derived families (iterated in the set order `enumHgnc`), each
with its member set from the current run's relations, sorted by
representative. -/
def sortedHgncPairs (relations : List RelTuple) (enumHgnc : List String)
    (repH : String → String) : List (String × List String) :=
  sortByRep repH
    (enumHgnc.map (fun f => (f, hgnc_members (all_gene_names relations) f)))

/-- The zipped positional pairing of lines 198–207: touched pre-existing
families (sorted by representative) against touched derived families
(sorted by representative).  `zip` truncates to the shorter list. -/
def overlapPairs (relations : List RelTuple) (store : List StoreRow)
    (enumCov enumHgnc : List String) (repF repH : String → String) :
    List ((String × List String) × (String × List String)) :=
  (sortedFplxPairs store enumCov repF).zip
    (sortedHgncPairs relations enumHgnc repH)

/-- `find_overlaps(relations)` (lines 163–208): `enumCov` and `enumHgnc`
are the iteration orders of the `covered_families` and `hgnc_families`
sets, `repF`/`repH` the representative picks of `list(x[1])[0]`; the
result is `totally_redundant` — the derived family of each positional
pair whose two member sets are equal — as a list used only through
membership. -/
def find_overlaps (relations : List RelTuple) (store : List StoreRow)
    (enumCov enumHgnc : List String) (repF repH : String → String) :
    List String :=
  ((overlapPairs relations store enumCov enumHgnc repF repH).filter
    (fun p => listSetEq p.1.2 p.2.2)).map (fun p => p.2.1)

/-- The root loop of `__main__` (lines 214–217): concatenate the
relations produced per root, in root order; any raised error aborts. -/
def mainRelationsRaw (env : Env) (fuel : Nat) :
    List String → Except RunError (List RelTuple)
  | [] => .ok []
  | root :: rest =>
    match get_relations_from_root env fuel root [] with
    | .error e => .error e
    | .ok rs =>
      match mainRelationsRaw env fuel rest with
      | .error e => .error e
      | .ok rest' => .ok (rs ++ rest')

/-- Line 219, `sorted(list(set(relations)), key=lambda x: (x[4], x[1]))`:
`enum` is the hash-order enumeration of `set(relations)` (see
`isSetEnum`); Python's sort is stable, as is `insertionSort`, so the
result is fully determined by `enum`. -/
def sortRelations (enum : List RelTuple) : List RelTuple :=
  List.insertionSort relLe enum

/-- The five fields of a relation written to `relations.csv`
(line 137, `','.join(rel[:-1])`): the provenance root id is dropped.
Rows are modelled pre-rendering, as 5-tuples of their comma-joined
fields. -/
def persistFields (r : RelTuple) : String × String × String × String × String :=
  (r.srcNs, r.srcId, r.kind, r.tgtNs, r.tgtId)

/-- Decimal digit character. -/
def digCh (n : Nat) : Char := Char.ofNat (48 + n)

/-- Decimal rendering of a natural number (fuel-structural so that it
evaluates by reduction). -/
def natToStrAux : Nat → Nat → List Char
  | 0, _ => []
  | fuel + 1, n => if n < 10 then [digCh n] else natToStrAux fuel (n / 10) ++ [digCh (n % 10)]

/-- Python `str` of a non-negative int. -/
def natToStr (n : Nat) : String := ⟨natToStrAux (n + 1) n⟩

/-- Python `str(i)` for an int. -/
def intToStr : Int → String
  | .ofNat n => natToStr n
  | .negSucc n => ⟨'-' :: (natToStr (n + 1)).data⟩

/-- Digits-only parse of a decimal numeral. -/
def digitsToNat : List Char → Option Nat
  | [] => none
  | ds =>
    if ds.all Char.isDigit then
      some (ds.foldl (fun n c => n * 10 + (c.toNat - 48)) 0)
    else none

/-- Python `int(s)` (line 151): an optional sign followed by one or more
digits; anything else raises `ValueError`.  (CPython additionally strips
surrounding whitespace and allows `_` digit separators; the ids in this
data are plain numerals, so that is not modelled.) -/
def pyInt (s : String) : Option Int :=
  match s.data with
  | '-' :: rest => (digitsToNat rest).map (fun n => -(n : Int))
  | '+' :: rest => (digitsToNat rest).map (fun n => (n : Int))
  | ds => (digitsToNat ds).map (fun n => (n : Int))

/-- `int(r[5]) for r in relations` inside `add_equivalences` (line 151):
the provenance root id of every surviving relation, parsed as an int;
a non-numeric id raises `ValueError`. -/
def relationRootIds : List RelTuple → Except RunError (List Int)
  | [] => .ok []
  | r :: rest =>
    match pyInt r.rootId with
    | none => .error (.valueError r.rootId)
    | some i =>
      match relationRootIds rest with
      | .error e => .error e
      | .ok l => .ok (i :: l)

/-- The row-building loop of `add_equivalences` (lines 153–155): for each
root family id (already sorted ascending as ints), look up
`families[str(fid)]` (a missing record raises `KeyError`) and emit
`('HGNC_GROUP', str(fid), get_famplex_id(...))`. -/
def equivRows (env : Env) : List Int → Except RunError (List (String × String × String))
  | [] => .ok []
  | fid :: rest =>
    match env.families (intToStr fid) with
    | none => .error (.keyError (intToStr fid))
    | some fam =>
      match equivRows env rest with
      | .error e => .error e
      | .ok l => .ok (("HGNC_GROUP", intToStr fid, get_famplex_id fam) :: l)

/-- Numeric ascending order used by
`sorted(list(set(int(r[5]) ...)))` in `add_equivalences`. -/
def intLeP (a b : Int) : Prop := a ≤ b

instance : DecidableRel intLeP := fun a b => inferInstanceAs (Decidable (a ≤ b))

instance : IsTotal Int intLeP := ⟨Int.le_total⟩

instance : IsTrans Int intLeP := ⟨fun _ _ _ => Int.le_trans⟩

/-- The three blocks appended by one run: rows for `relations.csv`
(5 fields, provenance stripped), rows for `entities.csv`, rows for
`equivalences.csv`.  Each row is modelled pre-rendering; the rendering
to `\r\n`-terminated comma-joined lines is injective on rows, so block
equality is row-list equality. -/
structure Output where
  relRows : List (String × String × String × String × String)
  entRows : List String
  eqRows : List (String × String × String)
deriving DecidableEq, Repr

/-- The hash-order choices CPython makes during one run: the iteration
order of `set(relations)` (line 219), of the entity set (line 224) and
the equivalence root-id set (line 151), the iteration orders of
`covered_families` and `hgnc_families`, and the `list(set)[0]`
representative picks inside `find_overlaps`.  Each is unspecified in
Python; theorems quantify over all choices satisfying `isSetEnum` /
membership constraints. -/
structure Choices where
  relEnum : List RelTuple
  enumCov : List String
  enumHgnc : List String
  repF : String → String
  repH : String → String
  entEnum : List String
  eqEnum : List Int

/-- `totally_redundant` for one run (lines 220–221): `find_overlaps`
applied to the sorted deduplicated relations, under the run's hash-order
choices. -/
def trOf (store : List StoreRow) (ch : Choices) : List String :=
  find_overlaps (sortRelations ch.relEnum) store ch.enumCov ch.enumHgnc
    ch.repF ch.repH

/-- Line 222: the sorted relations whose target id is not redundant. -/
def finalRelsOf (store : List StoreRow) (ch : Choices) : List RelTuple :=
  (sortRelations ch.relEnum).filter (fun r => decide (r.tgtId ∉ trOf store ch))

/-- Lines 211–228 of `__main__` plus the three `add_*` writers: flatten
each root, sort the deduplicated relations by `(target id, source id)`,
drop relations whose target is `totally_redundant`, then produce the
relation rows (provenance stripped), the sorted entity list, and the
equivalence rows of the surviving roots.  The script appends the three
blocks to their files in this order as it goes; `Output` models the
blocks of a run that completes, and a raised error models a run that
aborts. -/
def pipelineOutput (env : Env) (fuel : Nat) (roots : List String)
    (store : List StoreRow) (ch : Choices) : Except RunError Output :=
  match mainRelationsRaw env fuel roots with
  | .error e => .error e
  | .ok _raw =>
    match relationRootIds (finalRelsOf store ch) with
    | .error e => .error e
    | .ok _ids =>
      match equivRows env (List.insertionSort intLeP ch.eqEnum) with
      | .error e => .error e
      | .ok eqs =>
        .ok ⟨(finalRelsOf store ch).map persistFields,
             List.insertionSort strLeP ch.entEnum, eqs⟩

/-- A two-level test hierarchy: root family `1` (canonical id `R`) with a
single child family `2` that has no children and exactly one member gene
`g3` named `G3` — the collapse-rule scenario of the spec. -/
def testEnv : Env where
  families := fun id =>
    if id == "1" then some ⟨"R", ""⟩
    else if id == "2" then some ⟨"C2", ""⟩ else none
  children := fun id => if id == "1" then some ["2"] else none
  familyToGene := fun id => if id == "2" then ["g3"] else []
  getName := fun g => if g == "g3" then some "G3" else none

example :
    get_relations_from_root testEnv 5 "1" [] =
      .ok [⟨"HGNC", "G3", "isa", "FPLX", "R", "1"⟩] := rfl

theorem matchDigitsPEnd_iff : ∀ l : List Char,
    matchDigitsPEnd l = true ↔
      ∃ d : List Char, (l = d ++ ['P'] ∨ l = d ++ ['P', '\n']) ∧ d ≠ [] ∧
        ∀ c ∈ d, c.isDigit = true := by
  intro l
  induction l with
  | nil =>
    simp only [matchDigitsPEnd]
    constructor
    · intro h; exact Bool.noConfusion h
    · rintro ⟨d, hor, hne, _⟩
      rcases hor with h | h <;>
        exact absurd (congrArg List.length h) (by simp [List.length_append])
  | cons c rest ih =>
    simp only [matchDigitsPEnd, Bool.and_eq_true, Bool.or_eq_true,
      decide_eq_true_eq]
    constructor
    · rintro ⟨hdig, (h | h) | h⟩
      · exact ⟨[c], Or.inl (by rw [h]; rfl), by simp, by simpa using hdig⟩
      · exact ⟨[c], Or.inr (by rw [h]; rfl), by simp, by simpa using hdig⟩
      · obtain ⟨d', hor, hne, hall⟩ := ih.mp h
        refine ⟨c :: d', ?_, by simp, ?_⟩
        · rcases hor with h' | h'
          · exact Or.inl (by rw [h']; rfl)
          · exact Or.inr (by rw [h']; rfl)
        · intro x hx
          rcases List.mem_cons.mp hx with h' | h'
          · exact h' ▸ hdig
          · exact hall x h'
    · rintro ⟨d, hor, hne, hall⟩
      cases d with
      | nil => exact absurd rfl hne
      | cons x d' =>
        rcases hor with h | h
        · have hc : c = x := by simpa using congrArg (fun t => t.headD ' ') h
          have hrest : rest = d' ++ ['P'] := by
            have := congrArg List.tail h; simpa using this
          refine ⟨hc ▸ hall x (List.mem_cons_self x d'), ?_⟩
          cases d' with
          | nil => exact Or.inl (Or.inl (by simpa using hrest))
          | cons y d'' =>
            refine Or.inr (ih.mpr ⟨y :: d'', Or.inl hrest, by simp, ?_⟩)
            intro z hz
            exact hall z (List.mem_cons_of_mem x hz)
        · have hc : c = x := by simpa using congrArg (fun t => t.headD ' ') h
          have hrest : rest = d' ++ ['P', '\n'] := by
            have := congrArg List.tail h; simpa using this
          refine ⟨hc ▸ hall x (List.mem_cons_self x d'), ?_⟩
          cases d' with
          | nil => exact Or.inl (Or.inr (by simpa using hrest))
          | cons y d'' =>
            refine Or.inr (ih.mpr ⟨y :: d'', Or.inr hrest, by simp, ?_⟩)
            intro z hz
            exact hall z (List.mem_cons_of_mem x hz)

theorem reMatchPseudo_iff : ∀ l : List Char,
    reMatchPseudo l = true ↔
      ∃ a d : List Char,
        (l = a ++ d ++ ['P'] ∨ l = a ++ d ++ ['P', '\n']) ∧ d ≠ [] ∧
          (∀ c ∈ d, c.isDigit = true) ∧ ∀ c ∈ a, c ≠ '\n' := by
  intro l
  induction l with
  | nil =>
    simp only [reMatchPseudo]
    constructor
    · intro h; exact Bool.noConfusion h
    · rintro ⟨a, d, hor, hne, _, _⟩
      rcases hor with h | h <;>
        exact absurd (congrArg List.length h) (by simp [List.length_append]; omega)
  | cons c rest ih =>
    simp only [reMatchPseudo, Bool.or_eq_true, Bool.and_eq_true,
      decide_eq_true_eq]
    constructor
    · rintro (h | ⟨hc, h⟩)
      · obtain ⟨d, hor, hne, hall⟩ := (matchDigitsPEnd_iff (c :: rest)).mp h
        exact ⟨[], d, by simpa using hor, hne, hall, by simp⟩
      · obtain ⟨a', d, hor, hne, hall, hnl⟩ := ih.mp h
        refine ⟨c :: a', d, ?_, hne, hall, ?_⟩
        · rcases hor with h' | h'
          · exact Or.inl (by rw [h']; rfl)
          · exact Or.inr (by rw [h']; rfl)
        · intro z hz
          rcases List.mem_cons.mp hz with h' | h'
          · exact h' ▸ hc
          · exact hnl z h'
    · rintro ⟨a, d, hor, hne, hall, hnl⟩
      cases a with
      | nil =>
        refine Or.inl ((matchDigitsPEnd_iff (c :: rest)).mpr ⟨d, ?_, hne, hall⟩)
        simpa using hor
      | cons x a' =>
        have hc : c = x := by
          rcases hor with h | h <;> simpa using congrArg (fun t => t.headD ' ') h
        have hrest :
            rest = a' ++ d ++ ['P'] ∨ rest = a' ++ d ++ ['P', '\n'] := by
          rcases hor with h | h
          · exact Or.inl (by have := congrArg List.tail h; simpa using this)
          · exact Or.inr (by have := congrArg List.tail h; simpa using this)
        refine Or.inr ⟨hc ▸ hnl x (List.mem_cons_self x a'), ?_⟩
        exact ih.mpr ⟨a', d, hrest, hne, hall,
          fun z hz => hnl z (List.mem_cons_of_mem x hz)⟩

/-- C4 (counterexample): the claim reads `is_pseudogene` as "one or more
arbitrary characters, then one or more digits, then a literal 'P',
end-to-end".  The regex in the source is `^.*\d+P$` — *zero* or more
leading characters — so `"1P"` (no character before the digit) is
accepted by the code but rejected by the claim's pattern, which needs at
least three characters. -/
theorem C4_counterexample :
    is_pseudogene "1P" = true ∧
      ¬∃ a d : List Char, "1P".data = a ++ d ++ ['P'] ∧ a ≠ [] ∧ d ≠ [] ∧
          ∀ c ∈ d, c.isDigit = true := by
  constructor
  · decide
  · rintro ⟨a, d, heq, ha, hd, _⟩
    have hlen : 2 = a.length + (d.length + 1) := by
      have := congrArg List.length heq
      simpa [List.length_append] using this
    have h1 : 0 < a.length := List.length_pos.mpr ha
    have h2 : 0 < d.length := List.length_pos.mpr hd
    omega

/-- C4 (amended): `is_pseudogene s` is true iff `s` matches the Python
regex `^.*\d+P$` end-to-end: zero or more non-newline characters, one or
more (ASCII) digits, a literal `'P'`, at the end of the string or just
before one final newline (Python's `$`).  In particular
`is_pseudogene "ABC1P"` is true, `is_pseudogene "ABC1"` is false and
`is_pseudogene "P"` is false. -/
theorem C4_pseudogene_pattern :
    (∀ s : String,
      is_pseudogene s = true ↔
        ∃ a d : List Char,
          (s.data = a ++ d ++ ['P'] ∨ s.data = a ++ d ++ ['P', '\n']) ∧
            d ≠ [] ∧ (∀ c ∈ d, c.isDigit = true) ∧ ∀ c ∈ a, c ≠ '\n') ∧
      is_pseudogene "ABC1P" = true ∧ is_pseudogene "ABC1" = false ∧
        is_pseudogene "P" = false := by
  refine ⟨fun s => reMatchPseudo_iff s.data, by decide, by decide, by decide⟩

/-- C5 (counterexample): for an empty abbreviation and name
`"Foo Bar, Baz"`, the code replaces each space by `"_"` first (giving
`"Foo_Bar,_Baz"`) and only then deletes the comma, so the result is
`"Foo_Bar_Baz"`, not the claimed `"Foo_BarBaz"`. -/
theorem C5_counterexample :
    get_famplex_id ⟨"", "Foo Bar, Baz"⟩ = "Foo_Bar_Baz" ∧
      get_famplex_id ⟨"", "Foo Bar, Baz"⟩ ≠ "Foo_BarBaz" := by
  exact ⟨by decide, by decide⟩

/-- C5 (amended): for every family record with an empty `abbreviation`
field and `name` field `"Foo Bar, Baz"`, `get_famplex_id` returns
`"Foo_Bar_Baz"` (trimmed name with, in fixed order, space→`"_"`,
hyphen→`"_"`, comma→`""`). -/
theorem C5_famplex_id_of_name (f : Family)
    (habbr : f.abbreviation = "") (hname : f.name = "Foo Bar, Baz") :
    get_famplex_id f = "Foo_Bar_Baz" := by
  have : f = ⟨"", "Foo Bar, Baz"⟩ := by
    cases f
    simp_all
  rw [this]
  decide

/-- C5 (witness): the amended theorem applied at the concrete record. -/
theorem C5_famplex_id_witness :
    get_famplex_id ⟨"", "Foo Bar, Baz"⟩ = "Foo_Bar_Baz" :=
  C5_famplex_id_of_name ⟨"", "Foo Bar, Baz"⟩ rfl rfl

/-- A root family whose single member gene has no resolvable display
name (`get_hgnc_name` returns `None`). -/
def envNoName : Env where
  families := fun id => if id == "1" then some ⟨"R", ""⟩ else none
  children := fun _ => none
  familyToGene := fun id => if id == "1" then ["g"] else []
  getName := fun _ => none

/-- C2 (counterexample): the claim says a gene whose name resolution
fails is warned about and skipped, the traversal continuing.  In the
code the unresolved name (`None`) is passed straight to
`is_pseudogene`, i.e. to `re.match`, which raises `TypeError`: the
traversal aborts with an error instead of producing a relation list. -/
theorem C2_counterexample :
    get_relations_from_root envNoName 9 "1" [] =
      .error (.typeError "g") := rfl

theorem processGenes_resolution_failure (env : Env) (famplexId rootId : String) :
    ∀ (gs : List String) (rels : List RelTuple),
      (∃ g ∈ gs, env.getName g = none) →
      ∃ g, processGenes env famplexId rootId gs rels = .error (.typeError g) := by
  intro gs
  induction gs with
  | nil => rintro rels ⟨g, hg, _⟩; exact absurd hg (List.not_mem_nil g)
  | cons g0 gs' ih =>
    rintro rels ⟨g, hg, hname⟩
    cases hn0 : env.getName g0 with
    | none => exact ⟨g0, by simp [processGenes, hn0]⟩
    | some n0 =>
      have hg' : g ∈ gs' := by
        rcases List.mem_cons.mp hg with h | h
        · rw [h] at hname; rw [hname] at hn0; exact Option.noConfusion hn0
        · exact h
      by_cases hps : is_pseudogene n0 = true
      · obtain ⟨g', hgo⟩ := ih rels ⟨g, hg', hname⟩
        exact ⟨g', by simp [processGenes, hn0, hps, hgo]⟩
      · obtain ⟨g', hgo⟩ := ih
          (rels ++ [⟨"HGNC", n0, "isa", "FPLX", famplexId, rootId⟩])
          ⟨g, hg', hname⟩
        exact ⟨g', by simp [processGenes, hn0, hps, hgo]⟩

/-- C2 (amended): if some member gene of the family being flattened has
no resolvable display name, `get_relations_from_root` does not warn and
skip it — it aborts: the run ends with the `TypeError` raised by passing
the unresolved name to the pseudogene test, and no relation list is
produced for the root. -/
theorem C2_resolution_failure_aborts (env : Env) (fuel : Nat)
    (rootId : String) (fam : Family) (acc : List RelTuple)
    (hfam : env.families rootId = some fam)
    (hbad : ∃ g ∈ env.familyToGene rootId, env.getName g = none) :
    ∃ g, get_relations_from_root env (fuel + 1) rootId acc =
      .error (.typeError g) := by
  obtain ⟨g, hgo⟩ := processGenes_resolution_failure env (get_famplex_id fam)
    rootId (env.familyToGene rootId) acc hbad
  exact ⟨g, by simp [get_relations_from_root, hfam, hgo]⟩

/-- C2 (witness): the amended theorem applied to `envNoName`. -/
theorem C2_resolution_failure_witness :
    ∃ g, get_relations_from_root envNoName 9 "1" [] =
      .error (.typeError g) :=
  C2_resolution_failure_aborts envNoName 8 "1" ⟨"R", ""⟩ []
    (by decide) ⟨"g", by decide, rfl⟩

/-- C9: flattening looks families up in the metadata dict with plain
indexing.  (a) A root id with no metadata record makes
`families[root_id]` raise `KeyError` immediately; (b) a child id that
reaches the recurse branch (its grandchildren truthy, or its member-gene
count different from 1) and has no metadata record makes
`families[child_id]` raise `KeyError`.  In both cases the run aborts
with the error rather than skipping or warning. -/
theorem C9_missing_metadata_key (env : Env) (fuel : Nat) (rootId : String)
    (acc : List RelTuple) :
    (env.families rootId = none →
      get_relations_from_root env (fuel + 1) rootId acc =
        .error (.keyError rootId)) ∧
    (∀ (recurse : String → List RelTuple → Except RunError (List RelTuple))
        (famplexId c : String) (cs : List String) (rels : List RelTuple),
      (optListFalsy (env.children c) = false ∨
        (env.familyToGene c).length ≠ 1) →
      env.families c = none →
      processChildren env recurse famplexId rootId (c :: cs) rels =
        .error (.keyError c)) := by
  constructor
  · intro hnone
    simp [get_relations_from_root, hnone]
  · intro recurse famplexId c cs rels hguard hnone
    rcases hguard with hfal | hlen
    · cases hft : env.familyToGene c with
      | nil => simp [processChildren, hfal, hft, hnone]
      | cons g t =>
        cases t with
        | nil => simp [processChildren, hfal, hft, hnone]
        | cons g2 t2 => simp [processChildren, hfal, hft, hnone]
    · cases hof : optListFalsy (env.children c) with
      | false =>
        cases hft : env.familyToGene c with
        | nil => simp [processChildren, hof, hft, hnone]
        | cons g t =>
          cases t with
          | nil => simp [processChildren, hof, hft, hnone]
          | cons g2 t2 => simp [processChildren, hof, hft, hnone]
      | true =>
        cases hft : env.familyToGene c with
        | nil => simp [processChildren, hof, hft, hnone]
        | cons g t =>
          cases t with
          | nil => rw [hft] at hlen; simp at hlen
          | cons g2 t2 => simp [processChildren, hof, hft, hnone]

/-- C9 (witness): in `envNoName`, the unknown root id `"zzz"` aborts
with `KeyError`; and a child `"zzz"` reaching the recurse branch (zero
member genes) aborts with `KeyError`. -/
theorem C9_missing_metadata_witness :
    get_relations_from_root envNoName 9 "zzz" [] =
        .error (.keyError "zzz") ∧
      processChildren envNoName (get_relations_from_root envNoName 8)
          "R" "zzz" ["zzz"] [] = .error (.keyError "zzz") := by
  constructor
  · exact (C9_missing_metadata_key envNoName 8 "zzz" []).1 (by decide)
  · exact (C9_missing_metadata_key envNoName 8 "zzz" []).2
      (get_relations_from_root envNoName 8) "R" "zzz" [] []
      (Or.inr (by decide)) (by decide)

theorem readPairRows_malformed : ∀ rows : List (List String),
    (∃ row ∈ rows, row.length ≠ 2) →
    ∃ e, readPairRows rows = .error e := by
  intro rows
  induction rows with
  | nil => rintro ⟨row, hmem, _⟩; exact absurd hmem (List.not_mem_nil row)
  | cons row rest ih =>
    rintro ⟨w, hmem, hlen⟩
    cases row with
    | nil => exact ⟨.valueError "unpack", rfl⟩
    | cons a t1 =>
      cases t1 with
      | nil => exact ⟨.valueError "unpack", rfl⟩
      | cons b t2 =>
        cases t2 with
        | nil =>
          have hw : w ∈ rest := by
            rcases List.mem_cons.mp hmem with h | h
            · rw [h] at hlen; simp at hlen
            · exact h
          obtain ⟨e, he⟩ := ih ⟨w, hw, hlen⟩
          exact ⟨e, by simp [readPairRows, he]⟩
        | cons c t3 => exact ⟨.valueError "unpack", rfl⟩

theorem read_family_info_go_ok :
    ∀ (header : List String) (rows : List (List String)),
      (∀ row ∈ rows, row ≠ []) →
      read_family_info.go header rows =
        .ok (rows.map (fun row => (row.headD "", header.zip row))) := by
  intro header rows
  induction rows with
  | nil => intro _; rfl
  | cons row rest ih =>
    intro hne
    cases hrow : row with
    | nil => exact absurd rfl (hrow ▸ hne row (List.mem_cons_self row rest))
    | cons r0 t =>
      have htail := ih (fun r hr => hne r (List.mem_cons_of_mem row hr))
      simp [read_family_info.go, familyRowEntry, htail]

/-- C7 (counterexample): the claim says every source row with the wrong
column count aborts the load.  The family-metadata reader instead zips
each row against the header, and `zip` truncates: a 2-field row under a
3-field header is silently incorporated as a partial record, and the
load succeeds. -/
theorem C7_counterexample :
    read_family_info [["family_id", "abbreviation", "name"], ["5", "AB"]] =
        .ok [("5", [("family_id", "5"), ("abbreviation", "AB")])] ∧
      (["5", "AB"] : List String).length ≠
        (["family_id", "abbreviation", "name"] : List String).length := by
  exact ⟨rfl, by decide⟩

/-- C7 (amended): rows of the gene↔family table and of the hierarchy
table are tuple-unpacked, so a row whose length is not 2 fails fast with
a parse error; but rows of the family-metadata table are *not* checked —
every non-empty row is zipped against the header with silent truncation
and incorporated into the index (only an empty row aborts, via
`row[0]`). -/
theorem C7_malformed_rows (rows rows2 : List (List String))
    (header : List String) (frows : List (List String))
    (hbad : ∃ row ∈ rows, row.length ≠ 2)
    (hbad2 : ∃ row ∈ rows2, row.length ≠ 2)
    (hne : ∀ row ∈ frows, row ≠ []) :
    (∃ e, read_hgnc_family_genes rows = .error e) ∧
      (∃ e, read_hierarchy_info rows2 = .error e) ∧
      read_family_info (header :: frows) =
        .ok (frows.map (fun row => (row.headD "", header.zip row))) := by
  refine ⟨readPairRows_malformed rows hbad, ?_, ?_⟩
  · obtain ⟨e, he⟩ := readPairRows_malformed rows2 hbad2
    exact ⟨e, by simp [read_hierarchy_info, he]⟩
  · exact read_family_info_go_ok header frows hne

/-- C7 (witness): a 1-field row aborts both pair-table readers, while the
family-metadata reader accepts and truncates a short row. -/
theorem C7_malformed_rows_witness :
    (∃ e, read_hgnc_family_genes [["x"]] = .error e) ∧
      (∃ e, read_hierarchy_info [["p", "c"], ["q"]] = .error e) ∧
      read_family_info [["h1", "h2", "h3"], ["5", "AB"]] =
        .ok [("5", [("h1", "5"), ("h2", "AB")])] :=
  C7_malformed_rows [["x"]] [["p", "c"], ["q"]] ["h1", "h2", "h3"] [["5", "AB"]]
    ⟨["x"], by decide, by decide⟩ ⟨["q"], by decide, by decide⟩
    (by intro row hr; simp at hr; rw [hr]; decide)

/-- C8: line 219, `sorted(list(set(relations)), key=lambda x: (x[4],
x[1]))`, for any hash-order enumeration `enum` of `set(relations)`:
the result is sorted ascending by the lexicographic key
`(target id, source id)` (`relLe`), is duplicate-free, and has exactly
the members of the raw list — deduplication is by full 6-tuple
equality, so two relations identical in all five persisted fields but
with different provenance root ids are both kept. -/
theorem C8_dedup_and_sort (raw enum : List RelTuple)
    (henum : isSetEnum enum raw = true) :
    List.Sorted relLe (sortRelations enum) ∧ (sortRelations enum).Nodup ∧
      (∀ r, r ∈ sortRelations enum ↔ r ∈ raw) ∧
      ∀ r1 r2 : RelTuple, r1 ∈ raw → r2 ∈ raw →
        persistFields r1 = persistFields r2 → r1.rootId ≠ r2.rootId →
        r1 ∈ sortRelations enum ∧ r2 ∈ sortRelations enum := by
  obtain ⟨hnd, hmem⟩ := isSetEnum_spec henum
  have hmem' : ∀ r, r ∈ sortRelations enum ↔ r ∈ raw := by
    intro r
    rw [sortRelations, List.mem_insertionSort]
    exact hmem r
  refine ⟨List.sorted_insertionSort relLe enum,
    (List.perm_insertionSort relLe enum).nodup_iff.mpr hnd, hmem', ?_⟩
  intro r1 r2 h1 h2 _ _
  exact ⟨(hmem' r1).mpr h1, (hmem' r2).mpr h2⟩

/-- C8 (witness): two relations sharing all five persisted fields but
with different root ids are both kept and sorted. -/
theorem C8_dedup_and_sort_witness :
    List.Sorted relLe (sortRelations
        [⟨"HGNC", "A", "isa", "FPLX", "T", "2"⟩,
         ⟨"HGNC", "A", "isa", "FPLX", "T", "1"⟩]) ∧
      (sortRelations
        [⟨"HGNC", "A", "isa", "FPLX", "T", "2"⟩,
         ⟨"HGNC", "A", "isa", "FPLX", "T", "1"⟩]).Nodup ∧
      (∀ r, r ∈ sortRelations
          [⟨"HGNC", "A", "isa", "FPLX", "T", "2"⟩,
           ⟨"HGNC", "A", "isa", "FPLX", "T", "1"⟩] ↔
        r ∈ [⟨"HGNC", "A", "isa", "FPLX", "T", "1"⟩,
             ⟨"HGNC", "A", "isa", "FPLX", "T", "2"⟩]) ∧
      ∀ r1 r2 : RelTuple,
        r1 ∈ [⟨"HGNC", "A", "isa", "FPLX", "T", "1"⟩,
              ⟨"HGNC", "A", "isa", "FPLX", "T", "2"⟩] →
        r2 ∈ [⟨"HGNC", "A", "isa", "FPLX", "T", "1"⟩,
              ⟨"HGNC", "A", "isa", "FPLX", "T", "2"⟩] →
        persistFields r1 = persistFields r2 → r1.rootId ≠ r2.rootId →
        r1 ∈ sortRelations
            [⟨"HGNC", "A", "isa", "FPLX", "T", "2"⟩,
             ⟨"HGNC", "A", "isa", "FPLX", "T", "1"⟩] ∧
          r2 ∈ sortRelations
            [⟨"HGNC", "A", "isa", "FPLX", "T", "2"⟩,
             ⟨"HGNC", "A", "isa", "FPLX", "T", "1"⟩] :=
  C8_dedup_and_sort
    [⟨"HGNC", "A", "isa", "FPLX", "T", "1"⟩,
     ⟨"HGNC", "A", "isa", "FPLX", "T", "2"⟩]
    [⟨"HGNC", "A", "isa", "FPLX", "T", "2"⟩,
     ⟨"HGNC", "A", "isa", "FPLX", "T", "1"⟩]
    (by decide)

theorem sortedFplxPairs_length (store : List StoreRow) (enumCov : List String)
    (repF : String → String) :
    (sortedFplxPairs store enumCov repF).length = enumCov.length := by
  simp [sortedFplxPairs, sortByRep, List.length_insertionSort]

theorem sortedHgncPairs_length (relations : List RelTuple)
    (enumHgnc : List String) (repH : String → String) :
    (sortedHgncPairs relations enumHgnc repH).length = enumHgnc.length := by
  simp [sortedHgncPairs, sortByRep, List.length_insertionSort]

theorem sortedHgncPairs_fst_nodup (relations : List RelTuple)
    (enumHgnc : List String) (repH : String → String)
    (hH : enumHgnc.Nodup) :
    ((sortedHgncPairs relations enumHgnc repH).map Prod.fst).Nodup := by
  have hperm :
      List.Perm (sortedHgncPairs relations enumHgnc repH)
        (enumHgnc.map
          (fun f => (f, hgnc_members (all_gene_names relations) f))) := by
    rw [sortedHgncPairs, sortByRep]
    exact List.perm_insertionSort _ _
  have h2 := hperm.map Prod.fst
  have h3 : ((enumHgnc.map
      (fun f => (f, hgnc_members (all_gene_names relations) f))).map
        Prod.fst) = enumHgnc := by
    rw [List.map_map]
    have hid : (Prod.fst ∘ fun f => (f, hgnc_members (all_gene_names relations) f)) =
        fun f : String => f := rfl
    rw [hid]
    exact List.map_id enumHgnc
  rw [h3] at h2
  exact h2.nodup_iff.mpr hH

/-- C10: the redundancy detector compares exactly
`min |covered_families| |hgnc_families|` positional pairs (`zip`
truncates to the shorter sorted list); every family it marks redundant
is the derived member of one of those pairs; and any entry of the
derived-side sorted list beyond the zipped range — the excess when the
two counts differ — is never marked redundant, regardless of its member
set. -/
theorem C10_zip_truncates (relations : List RelTuple) (store : List StoreRow)
    (enumCov enumHgnc : List String) (repF repH : String → String)
    (hH : enumHgnc.Nodup) :
    (overlapPairs relations store enumCov enumHgnc repF repH).length =
        min enumCov.length enumHgnc.length ∧
      (∀ y ∈ find_overlaps relations store enumCov enumHgnc repF repH,
        ∃ p ∈ overlapPairs relations store enumCov enumHgnc repF repH,
          p.2.1 = y) ∧
      ∀ q ∈ (sortedHgncPairs relations enumHgnc repH).drop
          (overlapPairs relations store enumCov enumHgnc repF repH).length,
        q.1 ∉ find_overlaps relations store enumCov enumHgnc repF repH := by
  have hmemTR : ∀ y ∈ find_overlaps relations store enumCov enumHgnc repF repH,
      ∃ p ∈ overlapPairs relations store enumCov enumHgnc repF repH,
        p.2.1 = y := by
    intro y hy
    rw [find_overlaps] at hy
    obtain ⟨p, hpf, hpy⟩ := List.mem_map.mp hy
    exact ⟨p, List.mem_of_mem_filter hpf, hpy⟩
  refine ⟨?_, hmemTR, ?_⟩
  · rw [overlapPairs, List.length_zip, sortedFplxPairs_length,
      sortedHgncPairs_length]
  · intro q hq hyTR
    obtain ⟨p, hp, hpy⟩ := hmemTR q.1 hyTR
    have hfst := sortedHgncPairs_fst_nodup relations enumHgnc repH hH
    obtain ⟨i, hi, hpi⟩ := List.mem_iff_getElem.mp hp
    obtain ⟨j, hj, hqj⟩ := List.mem_iff_getElem.mp hq
    simp only [overlapPairs] at hpi hi
    have hiF : i < (sortedFplxPairs store enumCov repF).length := by
      rw [List.length_zip] at hi
      omega
    have hiH : i < (sortedHgncPairs relations enumHgnc repH).length := by
      rw [List.length_zip] at hi
      omega
    have hp2 : p.2 = (sortedHgncPairs relations enumHgnc repH)[i] := by
      rw [← hpi, List.getElem_zip]
    have hjlen : j < (sortedHgncPairs relations enumHgnc repH).length -
        (overlapPairs relations store enumCov enumHgnc repF repH).length := by
      simpa using hj
    have hnj : (overlapPairs relations store enumCov enumHgnc repF repH).length
        + j < (sortedHgncPairs relations enumHgnc repH).length := by
      omega
    have hq2 : q = (sortedHgncPairs relations enumHgnc repH)[
        (overlapPairs relations store enumCov enumHgnc repF repH).length + j] := by
      rw [← hqj, List.getElem_drop]
    have hiM : i < ((sortedHgncPairs relations enumHgnc repH).map Prod.fst).length := by
      simpa using hiH
    have hnjM : (overlapPairs relations store enumCov enumHgnc repF repH).length
        + j < ((sortedHgncPairs relations enumHgnc repH).map Prod.fst).length := by
      simpa using hnj
    have hkey :
        ((sortedHgncPairs relations enumHgnc repH).map Prod.fst)[i] =
          ((sortedHgncPairs relations enumHgnc repH).map Prod.fst)[
            (overlapPairs relations store enumCov enumHgnc repF repH).length + j] := by
      rw [List.getElem_map, List.getElem_map, ← hp2, ← hq2, hpy]
    have hij := hfst.getElem_inj_iff.mp hkey
    simp only [overlapPairs] at hij
    omega

/-- C10 (witness): with no touched pre-existing family and one touched
derived family, zero pairs are compared and the derived family is never
marked redundant. -/
theorem C10_zip_truncates_witness :
    (overlapPairs [] [] [] ["Y"] (fun _ => "") (fun _ => "")).length =
        min ([] : List String).length (["Y"] : List String).length ∧
      (∀ y ∈ find_overlaps [] [] [] ["Y"] (fun _ => "") (fun _ => ""),
        ∃ p ∈ overlapPairs [] [] [] ["Y"] (fun _ => "") (fun _ => ""),
          p.2.1 = y) ∧
      ∀ q ∈ (sortedHgncPairs [] ["Y"] (fun _ => "")).drop
          (overlapPairs [] [] [] ["Y"] (fun _ => "") (fun _ => "")).length,
        q.1 ∉ find_overlaps [] [] [] ["Y"] (fun _ => "") (fun _ => "") :=
  C10_zip_truncates [] [] [] ["Y"] (fun _ => "") (fun _ => "") (by decide)

/-- Two root families `1` (canonical id `DZ`, genes named `a`, `d`) and
`2` (canonical id `DY`, genes named `b`, `c`), no child families. -/
def envC1 : Env where
  families := fun id =>
    if id == "1" then some ⟨"DZ", ""⟩
    else if id == "2" then some ⟨"DY", ""⟩ else none
  children := fun _ => none
  familyToGene := fun id =>
    if id == "1" then ["ga", "gd"]
    else if id == "2" then ["gb", "gc"] else []
  getName := fun g =>
    if g == "ga" then some "a"
    else if g == "gb" then some "b"
    else if g == "gc" then some "c"
    else if g == "gd" then some "d" else none

/-- A persisted store with family `FAMX` = {a, d} and `FAMW` = {b, c}:
`FAMX` has exactly the member set of the derived `DZ`, `FAMW` exactly
that of the derived `DY`. -/
def storeC1 : List StoreRow :=
  [⟨"HGNC", "d", "isa", "FPLX", "FAMX"⟩,
   ⟨"HGNC", "a", "isa", "FPLX", "FAMX"⟩,
   ⟨"HGNC", "b", "isa", "FPLX", "FAMW"⟩,
   ⟨"HGNC", "c", "isa", "FPLX", "FAMW"⟩]

/-- The flattened relations of `envC1` in traversal order. -/
def rawC1 : List RelTuple :=
  [⟨"HGNC", "a", "isa", "FPLX", "DZ", "1"⟩,
   ⟨"HGNC", "d", "isa", "FPLX", "DZ", "1"⟩,
   ⟨"HGNC", "b", "isa", "FPLX", "DY", "2"⟩,
   ⟨"HGNC", "c", "isa", "FPLX", "DY", "2"⟩]

/-- A `list(set)[0]` pick for the store side: `d` for `FAMX` (which
holds {a, d}), `b` for `FAMW` (which holds {b, c}). -/
def repFC1 : String → String := fun t => if t == "FAMX" then "d" else "b"

/-- A `list(set)[0]` pick for the derived side: `a` for `DZ` (which
holds {a, d}), `c` for `DY` (which holds {b, c}). -/
def repHC1 : String → String := fun f => if f == "DZ" then "a" else "c"

/-- One concrete assignment of CPython's hash-order choices for a run of
`envC1` against `storeC1`.  Every component satisfies the validity
constraints (`isSetEnum` / representative-membership), checked in
`C1_counterexample`. -/
def chC1 : Choices :=
  ⟨rawC1, ["FAMX", "FAMW"], ["DZ", "DY"], repFC1, repHC1,
   ["DZ", "DY"], [2, 1]⟩

/-- The resulting output: nothing is excluded. -/
def outC1 : Output :=
  ⟨[("HGNC", "b", "isa", "FPLX", "DY"), ("HGNC", "c", "isa", "FPLX", "DY"),
    ("HGNC", "a", "isa", "FPLX", "DZ"), ("HGNC", "d", "isa", "FPLX", "DZ")],
   ["DY", "DZ"],
   [("HGNC_GROUP", "1", "DZ"), ("HGNC_GROUP", "2", "DY")]⟩

/-- C1 (counterexample): pre-existing `FAMX` has exactly the same gene
set {a, d} as the derived family `DZ`, yet `DZ` is *not* excluded: the
representative-sorted lists pair `FAMW` with `DZ` and `FAMX` with `DY`
(the representatives cross), both comparisons fail, `totally_redundant`
is empty, and `DZ` survives in the final relations and entities.  All
hash-order choices used are valid set enumerations / representative
picks, so this is a possible run of the full pipeline. -/
theorem C1_counterexample :
    mainRelationsRaw envC1 9 ["1", "2"] = .ok rawC1 ∧
      isSetEnum chC1.relEnum rawC1 = true ∧
      isSetEnum chC1.enumCov
        (coveredFamiliesScan (all_gene_names (sortRelations chC1.relEnum))
          storeC1) = true ∧
      isSetEnum chC1.enumHgnc
        (hgncFamiliesScan (all_gene_names (sortRelations chC1.relEnum))
          storeC1) = true ∧
      chC1.repF "FAMX" ∈ fam_members storeC1 "FAMX" ∧
      chC1.repF "FAMW" ∈ fam_members storeC1 "FAMW" ∧
      chC1.repH "DZ" ∈
        hgnc_members (all_gene_names (sortRelations chC1.relEnum)) "DZ" ∧
      chC1.repH "DY" ∈
        hgnc_members (all_gene_names (sortRelations chC1.relEnum)) "DY" ∧
      listSetEq (fam_members storeC1 "FAMX")
        (hgnc_members (all_gene_names (sortRelations chC1.relEnum)) "DZ") =
          true ∧
      pipelineOutput envC1 9 ["1", "2"] storeC1 chC1 = .ok outC1 ∧
      ("HGNC", "a", "isa", "FPLX", "DZ") ∈ outC1.relRows ∧
      "DZ" ∈ outC1.entRows := by
  refine ⟨rfl, by decide, by decide, by decide, by decide, by decide,
    by decide, by decide, by decide, rfl, by decide, by decide⟩

theorem isSetEnum_nil_source {α : Type} [DecidableEq α] {e : List α}
    (h : isSetEnum e ([] : List α) = true) : e = [] := by
  obtain ⟨_, hmem⟩ := isSetEnum_spec h
  exact List.eq_nil_iff_forall_not_mem.mpr
    (fun a ha => by simpa using (hmem a).mp ha)

theorem find_overlaps_nil_cov (rels : List RelTuple) (store : List StoreRow)
    (enumHgnc : List String) (repF repH : String → String) :
    find_overlaps rels store [] enumHgnc repF repH = [] := rfl

theorem filter_tgt_nil (l : List RelTuple) :
    l.filter (fun r => decide (r.tgtId ∉ ([] : List String))) = l :=
  List.filter_eq_self.mpr (fun a _ => by simp)

theorem relationRootIds_mem : ∀ (l : List RelTuple) (ids : List Int),
    relationRootIds l = .ok ids →
    ∀ i : Int, i ∈ ids ↔ ∃ r ∈ l, pyInt r.rootId = some i := by
  intro l
  induction l with
  | nil =>
    intro ids h i
    simp only [relationRootIds] at h
    injection h with h2
    subst h2
    simp
  | cons r rest ih =>
    intro ids h i
    cases hpi : pyInt r.rootId with
    | none => simp [relationRootIds, hpi] at h
    | some v =>
      cases hrest : relationRootIds rest with
      | error e => simp [relationRootIds, hpi, hrest] at h
      | ok l' =>
        simp only [relationRootIds, hpi, hrest] at h
        injection h with h2
        subst h2
        constructor
        · intro hm
          rcases List.mem_cons.mp hm with rfl | hm'
          · exact ⟨r, List.mem_cons_self r rest, hpi⟩
          · obtain ⟨r', hr', hp'⟩ := ((ih l' hrest) i).mp hm'
            exact ⟨r', List.mem_cons_of_mem r hr', hp'⟩
        · rintro ⟨r', hr', hp'⟩
          rcases List.mem_cons.mp hr' with rfl | hm'
          · rw [hpi] at hp'
            injection hp' with h3
            exact h3 ▸ List.mem_cons_self v l'
          · exact List.mem_cons_of_mem v (((ih l' hrest) i).mpr ⟨r', hm', hp'⟩)

theorem insertionSort_strLeP_unique (e1 e2 : List String)
    (hp : List.Perm e1 e2) :
    List.insertionSort strLeP e1 = List.insertionSort strLeP e2 :=
  eq_of_perm_of_pairwise_of_antisymmOn _ _
    ((List.perm_insertionSort strLeP e1).trans
      (hp.trans (List.perm_insertionSort strLeP e2).symm))
    (List.sorted_insertionSort strLeP e1)
    (List.sorted_insertionSort strLeP e2)
    (fun a _ b _ hab hba => strLeP_antisymm a b hab hba)

theorem insertionSort_intLeP_unique (e1 e2 : List Int)
    (hp : List.Perm e1 e2) :
    List.insertionSort intLeP e1 = List.insertionSort intLeP e2 :=
  eq_of_perm_of_pairwise_of_antisymmOn _ _
    ((List.perm_insertionSort intLeP e1).trans
      (hp.trans (List.perm_insertionSort intLeP e2).symm))
    (List.sorted_insertionSort intLeP e1)
    (List.sorted_insertionSort intLeP e2)
    (fun _ _ _ _ hab hba => Int.le_antisymm hab hba)

theorem map_persistFields_sorted_unique (raw e1 e2 : List RelTuple)
    (h1 : isSetEnum e1 raw = true) (h2 : isSetEnum e2 raw = true)
    (hkey : ∀ r1 ∈ raw, ∀ r2 ∈ raw, relKey r1 = relKey r2 →
      persistFields r1 = persistFields r2) :
    (sortRelations e1).map persistFields =
      (sortRelations e2).map persistFields := by
  obtain ⟨hnd1, hm1⟩ := isSetEnum_spec h1
  obtain ⟨hnd2, hm2⟩ := isSetEnum_spec h2
  have hpe : List.Perm e1 e2 :=
    (List.perm_ext_iff_of_nodup hnd1 hnd2).mpr
      (fun a => (hm1 a).trans (hm2 a).symm)
  have hps : List.Perm (sortRelations e1) (sortRelations e2) :=
    (List.perm_insertionSort relLe e1).trans
      (hpe.trans (List.perm_insertionSort relLe e2).symm)
  have hanti : ∀ p ∈ (sortRelations e1).map
        (fun r => (relKey r, persistFields r)),
      ∀ q ∈ (sortRelations e1).map (fun r => (relKey r, persistFields r)),
      pairLeB p.1 q.1 = true → pairLeB q.1 p.1 = true → p = q := by
    rintro p hp q hq hpq hqp
    obtain ⟨r1, hr1, rfl⟩ := List.mem_map.mp hp
    obtain ⟨r2, hr2, rfl⟩ := List.mem_map.mp hq
    have hkeq : relKey r1 = relKey r2 := pairLeB_antisymm _ _ hpq hqp
    have hr1r : r1 ∈ raw :=
      (hm1 r1).mp ((List.mem_insertionSort relLe).mp hr1)
    have hr2r : r2 ∈ raw :=
      (hm1 r2).mp ((List.mem_insertionSort relLe).mp hr2)
    have hpeq := hkey r1 hr1r r2 hr2r hkeq
    rw [hkeq, hpeq]
  have hpw1 : ((sortRelations e1).map
      (fun r => (relKey r, persistFields r))).Pairwise
        (fun p q => pairLeB p.1 q.1 = true) :=
    List.pairwise_map.mpr (List.sorted_insertionSort relLe e1)
  have hpw2 : ((sortRelations e2).map
      (fun r => (relKey r, persistFields r))).Pairwise
        (fun p q => pairLeB p.1 q.1 = true) :=
    List.pairwise_map.mpr (List.sorted_insertionSort relLe e2)
  have hmap := eq_of_perm_of_pairwise_of_antisymmOn
    ((sortRelations e1).map (fun r => (relKey r, persistFields r)))
    ((sortRelations e2).map (fun r => (relKey r, persistFields r)))
    (hps.map _) hpw1 hpw2 hanti
  have hfin := congrArg (List.map Prod.snd) hmap
  rw [List.map_map, List.map_map] at hfin
  have hc : (Prod.snd ∘ fun r : RelTuple => (relKey r, persistFields r)) =
      persistFields := rfl
  rw [hc] at hfin
  exact hfin

/-- A root family `1` (canonical id `T`) with one member gene named `X`
and one child family `2` whose canonical id is also `X` (two member
genes, so the recurse rule applies): the run emits both
`('HGNC', 'X', 'isa', 'FPLX', 'T', '1')` and
`('FPLX', 'X', 'isa', 'FPLX', 'T', '1')`, two distinct relations with
the same sort key `('T', 'X')`. -/
def envC6 : Env where
  families := fun id =>
    if id == "1" then some ⟨"T", ""⟩
    else if id == "2" then some ⟨"X", ""⟩ else none
  children := fun id => if id == "1" then some ["2"] else none
  familyToGene := fun id =>
    if id == "1" then ["gx"]
    else if id == "2" then ["g1", "g2"] else []
  getName := fun g =>
    if g == "gx" then some "X"
    else if g == "g1" then some "A"
    else if g == "g2" then some "B" else none

/-- The flattened relations of `envC6` in traversal order (the
relations emitted inside the recursive call carry the child `2` as
their provenance root, exactly as in the Python code). -/
def rawC6 : List RelTuple :=
  [⟨"HGNC", "X", "isa", "FPLX", "T", "1"⟩,
   ⟨"FPLX", "X", "isa", "FPLX", "T", "1"⟩,
   ⟨"HGNC", "A", "isa", "FPLX", "X", "2"⟩,
   ⟨"HGNC", "B", "isa", "FPLX", "X", "2"⟩]

/-- One valid hash-order assignment for a run of `envC6` with an empty
store: `set(relations)` iterates in traversal order. -/
def chA6 : Choices :=
  ⟨rawC6, [], [], fun _ => "", fun _ => "", ["T", "X"], [2, 1]⟩

/-- A second valid hash-order assignment for the same inputs:
`set(relations)` iterates with the two key-tied relations swapped. -/
def chB6 : Choices :=
  ⟨[⟨"FPLX", "X", "isa", "FPLX", "T", "1"⟩,
    ⟨"HGNC", "X", "isa", "FPLX", "T", "1"⟩,
    ⟨"HGNC", "A", "isa", "FPLX", "X", "2"⟩,
    ⟨"HGNC", "B", "isa", "FPLX", "X", "2"⟩],
   [], [], fun _ => "", fun _ => "", ["T", "X"], [1, 2]⟩

/-- Output of the `chA6` run. -/
def outA6 : Output :=
  ⟨[("HGNC", "X", "isa", "FPLX", "T"), ("FPLX", "X", "isa", "FPLX", "T"),
    ("HGNC", "A", "isa", "FPLX", "X"), ("HGNC", "B", "isa", "FPLX", "X")],
   ["T", "X"],
   [("HGNC_GROUP", "1", "T"), ("HGNC_GROUP", "2", "X")]⟩

/-- Output of the `chB6` run: the two key-tied relation rows appear in
the other order. -/
def outB6 : Output :=
  ⟨[("FPLX", "X", "isa", "FPLX", "T"), ("HGNC", "X", "isa", "FPLX", "T"),
    ("HGNC", "A", "isa", "FPLX", "X"), ("HGNC", "B", "isa", "FPLX", "X")],
   ["T", "X"],
   [("HGNC_GROUP", "1", "T"), ("HGNC_GROUP", "2", "X")]⟩

/-- C6 (counterexample): two runs of the full pipeline on the same root
ids, tables, name resolutions and an empty persisted store, differing
only in the (unspecified) iteration order of `set(relations)` — both
orders shown valid by the `isSetEnum` conjuncts — produce different
relation blocks: the sort key `(x[4], x[1])` does not separate
`('HGNC','X',…,'T')` from `('FPLX','X',…,'T')`, and Python's stable sort
leaves tied elements in hash order.  The pipeline output is therefore
not a function of the declared inputs alone. -/
theorem C6_counterexample :
    mainRelationsRaw envC6 9 ["1"] = .ok rawC6 ∧
      isSetEnum chA6.relEnum rawC6 = true ∧
      isSetEnum chB6.relEnum rawC6 = true ∧
      isSetEnum chA6.enumCov
        (coveredFamiliesScan (all_gene_names (sortRelations chA6.relEnum))
          []) = true ∧
      isSetEnum chB6.enumCov
        (coveredFamiliesScan (all_gene_names (sortRelations chB6.relEnum))
          []) = true ∧
      isSetEnum chA6.enumHgnc
        (hgncFamiliesScan (all_gene_names (sortRelations chA6.relEnum))
          []) = true ∧
      isSetEnum chB6.enumHgnc
        (hgncFamiliesScan (all_gene_names (sortRelations chB6.relEnum))
          []) = true ∧
      isSetEnum chA6.entEnum
        ((finalRelsOf [] chA6).map (fun r => r.tgtId)) = true ∧
      isSetEnum chB6.entEnum
        ((finalRelsOf [] chB6).map (fun r => r.tgtId)) = true ∧
      relationRootIds (finalRelsOf [] chA6) = .ok [1, 1, 2, 2] ∧
      relationRootIds (finalRelsOf [] chB6) = .ok [1, 1, 2, 2] ∧
      isSetEnum chA6.eqEnum [(1 : Int), 1, 2, 2] = true ∧
      isSetEnum chB6.eqEnum [(1 : Int), 1, 2, 2] = true ∧
      pipelineOutput envC6 9 ["1"] [] chA6 = .ok outA6 ∧
      pipelineOutput envC6 9 ["1"] [] chB6 = .ok outB6 ∧
      outA6 ≠ outB6 := by
  refine ⟨rfl, by decide, by decide, by decide, by decide, by decide,
    by decide, by decide, by decide, rfl, rfl, by decide, by decide,
    rfl, rfl, by decide⟩

/-- C6 (amended): with the same root ids, tables and name resolutions
and an empty initial persisted store, two runs of the full pipeline
produce identical relation, entity and equivalence blocks *provided* no
two distinct derived relations share the sort key (target id, source id)
while differing in their five persisted fields (relations differing only
in provenance render identically anyway; see `C6_counterexample` for why
the proviso is needed).  Entities and equivalences are compared after
their own sorts, whose keys are total orders, so they need no proviso
beyond validity of the hash-order choices. -/
theorem C6_deterministic_given_key_separation (env : Env) (fuel : Nat)
    (roots : List String) (ch1 ch2 : Choices) (raw : List RelTuple)
    (ids1 ids2 : List Int)
    (hraw : mainRelationsRaw env fuel roots = .ok raw)
    (hrel1 : isSetEnum ch1.relEnum raw = true)
    (hrel2 : isSetEnum ch2.relEnum raw = true)
    (hcov1 : isSetEnum ch1.enumCov
      (coveredFamiliesScan (all_gene_names (sortRelations ch1.relEnum))
        []) = true)
    (hcov2 : isSetEnum ch2.enumCov
      (coveredFamiliesScan (all_gene_names (sortRelations ch2.relEnum))
        []) = true)
    (hent1 : isSetEnum ch1.entEnum
      ((finalRelsOf [] ch1).map (fun r => r.tgtId)) = true)
    (hent2 : isSetEnum ch2.entEnum
      ((finalRelsOf [] ch2).map (fun r => r.tgtId)) = true)
    (hids1 : relationRootIds (finalRelsOf [] ch1) = .ok ids1)
    (hids2 : relationRootIds (finalRelsOf [] ch2) = .ok ids2)
    (heq1 : isSetEnum ch1.eqEnum ids1 = true)
    (heq2 : isSetEnum ch2.eqEnum ids2 = true)
    (hkey : ∀ r1 ∈ raw, ∀ r2 ∈ raw, relKey r1 = relKey r2 →
      persistFields r1 = persistFields r2) :
    pipelineOutput env fuel roots [] ch1 = pipelineOutput env fuel roots [] ch2 := by
  have hc1 : ch1.enumCov = [] := by
    have h0 : coveredFamiliesScan
        (all_gene_names (sortRelations ch1.relEnum)) ([] : List StoreRow) =
          [] := rfl
    rw [h0] at hcov1
    exact isSetEnum_nil_source hcov1
  have hc2 : ch2.enumCov = [] := by
    have h0 : coveredFamiliesScan
        (all_gene_names (sortRelations ch2.relEnum)) ([] : List StoreRow) =
          [] := rfl
    rw [h0] at hcov2
    exact isSetEnum_nil_source hcov2
  have htr1 : trOf [] ch1 = [] := by
    unfold trOf
    rw [hc1]
    exact find_overlaps_nil_cov _ _ _ _ _
  have htr2 : trOf [] ch2 = [] := by
    unfold trOf
    rw [hc2]
    exact find_overlaps_nil_cov _ _ _ _ _
  have hfin1 : finalRelsOf [] ch1 = sortRelations ch1.relEnum := by
    unfold finalRelsOf
    rw [htr1]
    exact filter_tgt_nil _
  have hfin2 : finalRelsOf [] ch2 = sortRelations ch2.relEnum := by
    unfold finalRelsOf
    rw [htr2]
    exact filter_tgt_nil _
  obtain ⟨hnd1, hm1⟩ := isSetEnum_spec hrel1
  obtain ⟨hnd2, hm2⟩ := isSetEnum_spec hrel2
  have hsm1 : ∀ r, r ∈ sortRelations ch1.relEnum ↔ r ∈ raw :=
    fun r => (List.mem_insertionSort relLe).trans (hm1 r)
  have hsm2 : ∀ r, r ∈ sortRelations ch2.relEnum ↔ r ∈ raw :=
    fun r => (List.mem_insertionSort relLe).trans (hm2 r)
  have hrows := map_persistFields_sorted_unique raw ch1.relEnum ch2.relEnum
    hrel1 hrel2 hkey
  obtain ⟨hend1, hem1⟩ := isSetEnum_spec hent1
  obtain ⟨hend2, hem2⟩ := isSetEnum_spec hent2
  have hentm : ∀ a, a ∈ ch1.entEnum ↔ a ∈ ch2.entEnum := by
    intro a
    rw [hem1 a, hem2 a, hfin1, hfin2]
    constructor
    · intro h
      obtain ⟨r, hr, hra⟩ := List.mem_map.mp h
      exact List.mem_map.mpr ⟨r, (hsm2 r).mpr ((hsm1 r).mp hr), hra⟩
    · intro h
      obtain ⟨r, hr, hra⟩ := List.mem_map.mp h
      exact List.mem_map.mpr ⟨r, (hsm1 r).mpr ((hsm2 r).mp hr), hra⟩
  have hents := insertionSort_strLeP_unique ch1.entEnum ch2.entEnum
    ((List.perm_ext_iff_of_nodup hend1 hend2).mpr hentm)
  obtain ⟨hqd1, hqm1⟩ := isSetEnum_spec heq1
  obtain ⟨hqd2, hqm2⟩ := isSetEnum_spec heq2
  have hidm1 := relationRootIds_mem _ _ hids1
  have hidm2 := relationRootIds_mem _ _ hids2
  have hqmm : ∀ i, i ∈ ch1.eqEnum ↔ i ∈ ch2.eqEnum := by
    intro i
    rw [hqm1 i, hqm2 i, hidm1 i, hidm2 i, hfin1, hfin2]
    constructor
    · rintro ⟨r, hr, hp⟩
      exact ⟨r, (hsm2 r).mpr ((hsm1 r).mp hr), hp⟩
    · rintro ⟨r, hr, hp⟩
      exact ⟨r, (hsm1 r).mpr ((hsm2 r).mp hr), hp⟩
  have hqs := insertionSort_intLeP_unique ch1.eqEnum ch2.eqEnum
    ((List.perm_ext_iff_of_nodup hqd1 hqd2).mpr hqmm)
  simp only [pipelineOutput, hraw, hids1, hids2, hqs]
  cases hev : equivRows env (List.insertionSort intLeP ch2.eqEnum) with
  | error e => rfl
  | ok eqs =>
    rw [hfin1, hfin2, hrows, hents]

/-- One valid assignment of hash-order choices for `testEnv`. -/
def chT6 : Choices :=
  ⟨[⟨"HGNC", "G3", "isa", "FPLX", "R", "1"⟩], [], [],
   fun _ => "", fun _ => "", ["R"], [1]⟩

/-- C6 (witness): the determinism theorem applied to the concrete run of
`testEnv` with an empty store. -/
theorem C6_deterministic_witness :
    pipelineOutput testEnv 9 ["1"] [] chT6 =
      pipelineOutput testEnv 9 ["1"] [] chT6 :=
  C6_deterministic_given_key_separation testEnv 9 ["1"] chT6 chT6
    [⟨"HGNC", "G3", "isa", "FPLX", "R", "1"⟩] [1] [1]
    rfl (by decide) (by decide) (by decide) (by decide) (by decide)
    (by decide) rfl rfl (by decide) (by decide) (by decide)

theorem processGenes_subset (env : Env) (famplexId rootId : String) :
    ∀ (gs : List String) (acc out : List RelTuple),
      processGenes env famplexId rootId gs acc = .ok out →
      ∀ r ∈ acc, r ∈ out := by
  intro gs
  induction gs with
  | nil =>
    intro acc out h r hr
    injection h with h2
    exact h2 ▸ hr
  | cons g gs' ih =>
    intro acc out h r hr
    cases hn : env.getName g with
    | none => simp [processGenes, hn] at h
    | some n =>
      by_cases hps : is_pseudogene n = true
      · simp only [processGenes, hn, if_pos hps] at h
        exact ih acc out h r hr
      · simp only [processGenes, hn, if_neg hps] at h
        exact ih _ out h r (List.mem_append.mpr (Or.inl hr))

theorem processGenes_shape (env : Env) (famplexId rootId : String) :
    ∀ (gs : List String) (acc out : List RelTuple),
      processGenes env famplexId rootId gs acc = .ok out →
      ∀ r ∈ out, r ∈ acc ∨
        (r.srcNs = "HGNC" ∧ r.tgtNs = "FPLX" ∧ r.tgtId = famplexId ∧
          r.rootId = rootId) := by
  intro gs
  induction gs with
  | nil =>
    intro acc out h r hr
    injection h with h2
    exact Or.inl (h2 ▸ hr)
  | cons g gs' ih =>
    intro acc out h r hr
    cases hn : env.getName g with
    | none => simp [processGenes, hn] at h
    | some n =>
      by_cases hps : is_pseudogene n = true
      · simp only [processGenes, hn, if_pos hps] at h
        exact ih acc out h r hr
      · simp only [processGenes, hn, if_neg hps] at h
        rcases ih _ out h r hr with hacc | hshape
        · rcases List.mem_append.mp hacc with h1 | h1
          · exact Or.inl h1
          · rcases List.mem_singleton.mp h1 with rfl
            exact Or.inr ⟨rfl, rfl, rfl, rfl⟩
        · exact Or.inr hshape

theorem processChildren_subset (env : Env)
    (recurse : String → List RelTuple → Except RunError (List RelTuple))
    (famplexId rootId : String)
    (hrec : ∀ root' acc' out', recurse root' acc' = .ok out' →
      ∀ r ∈ acc', r ∈ out') :
    ∀ (cs : List String) (acc out : List RelTuple),
      processChildren env recurse famplexId rootId cs acc = .ok out →
      ∀ r ∈ acc, r ∈ out := by
  intro cs
  induction cs with
  | nil =>
    intro acc out h r hr
    injection h with h2
    exact h2 ▸ hr
  | cons d cs' ih =>
    intro acc out h r hr
    cases hof : optListFalsy (env.children d) with
    | true =>
      cases hft : env.familyToGene d with
      | nil =>
        simp only [processChildren, hof, hft] at h
        cases hfam : env.families d with
        | none => simp only [hfam] at h; exact Except.noConfusion h
        | some famd =>
          simp only [hfam] at h
          cases hmid : recurse d
              (acc ++ [⟨"FPLX", get_famplex_id famd, "isa", "FPLX",
                famplexId, rootId⟩]) with
          | error e => simp only [hmid] at h; exact Except.noConfusion h
          | ok mid =>
            simp only [hmid] at h
            exact ih mid out h r
              (hrec d _ mid hmid r (List.mem_append.mpr (Or.inl hr)))
      | cons g t =>
        cases t with
        | nil =>
          simp only [processChildren, hof, hft] at h
          cases hn : env.getName g with
          | none => simp only [hn] at h; exact Except.noConfusion h
          | some n =>
            simp only [hn] at h
            by_cases hps : is_pseudogene n = true
            · simp only [if_pos hps] at h
              exact ih acc out h r hr
            · simp only [if_neg hps] at h
              exact ih _ out h r (List.mem_append.mpr (Or.inl hr))
        | cons g2 t2 =>
          simp only [processChildren, hof, hft] at h
          cases hfam : env.families d with
          | none => simp only [hfam] at h; exact Except.noConfusion h
          | some famd =>
            simp only [hfam] at h
            cases hmid : recurse d
                (acc ++ [⟨"FPLX", get_famplex_id famd, "isa", "FPLX",
                  famplexId, rootId⟩]) with
            | error e => simp only [hmid] at h; exact Except.noConfusion h
            | ok mid =>
              simp only [hmid] at h
              exact ih mid out h r
                (hrec d _ mid hmid r (List.mem_append.mpr (Or.inl hr)))
    | false =>
      simp only [processChildren, hof] at h
      cases hfam : env.families d with
      | none => simp only [hfam] at h; exact Except.noConfusion h
      | some famd =>
        simp only [hfam] at h
        cases hmid : recurse d
            (acc ++ [⟨"FPLX", get_famplex_id famd, "isa", "FPLX",
              famplexId, rootId⟩]) with
        | error e => simp only [hmid] at h; exact Except.noConfusion h
        | ok mid =>
          simp only [hmid] at h
          exact ih mid out h r
            (hrec d _ mid hmid r (List.mem_append.mpr (Or.inl hr)))

theorem get_relations_from_root_subset (env : Env) :
    ∀ (fuel : Nat) (rootId : String) (acc out : List RelTuple),
      get_relations_from_root env fuel rootId acc = .ok out →
      ∀ r ∈ acc, r ∈ out := by
  intro fuel
  induction fuel with
  | zero => intro rootId acc out h; exact Except.noConfusion h
  | succ f ih =>
    intro rootId acc out h r hr
    cases hfam : env.families rootId with
    | none => simp [get_relations_from_root, hfam] at h
    | some famr =>
      simp only [get_relations_from_root, hfam] at h
      cases hpg : processGenes env (get_famplex_id famr) rootId
          (env.familyToGene rootId) acc with
      | error e => simp only [hpg] at h; exact Except.noConfusion h
      | ok out1 =>
        simp only [hpg] at h
        have hr1 : r ∈ out1 :=
          processGenes_subset env (get_famplex_id famr) rootId _ acc out1
            hpg r hr
        cases hch : env.children rootId with
        | none =>
          simp only [hch] at h
          injection h with h2
          exact h2 ▸ hr1
        | some cs =>
          simp only [hch] at h
          exact processChildren_subset env (get_relations_from_root env f)
            (get_famplex_id famr) rootId (fun a b c hm => ih a b c hm)
            cs out1 out h r hr1

/-- No relation of `l` mentions the famplex id `fidc` as an FPLX source
or as a target: the elided-family invariant of the collapse rule. -/
def elidedInv (fidc : String) (l : List RelTuple) : Prop :=
  ∀ r ∈ l, (r.srcNs = "FPLX" → r.srcId ≠ fidc) ∧ r.tgtId ≠ fidc

theorem elidedInv_append (fidc : String) (l : List RelTuple) (x : RelTuple)
    (hl : elidedInv fidc l) (hx : (x.srcNs = "FPLX" → x.srcId ≠ fidc) ∧
      x.tgtId ≠ fidc) :
    elidedInv fidc (l ++ [x]) := by
  intro r hr
  rcases List.mem_append.mp hr with h | h
  · exact hl r h
  · rcases List.mem_singleton.mp h with rfl
    exact hx

theorem processChildren_emits (env : Env)
    (recurse : String → List RelTuple → Except RunError (List RelTuple))
    (famplexId rootId : String) (c g n : String)
    (hgc : optListFalsy (env.children c) = true)
    (hcg : env.familyToGene c = [g])
    (hn : env.getName g = some n)
    (hps : is_pseudogene n = false)
    (hrecsub : ∀ root' acc' out', recurse root' acc' = .ok out' →
      ∀ r ∈ acc', r ∈ out') :
    ∀ (cs : List String) (acc out : List RelTuple),
      processChildren env recurse famplexId rootId cs acc = .ok out →
      c ∈ cs →
      (⟨"HGNC", n, "isa", "FPLX", famplexId, rootId⟩ : RelTuple) ∈ out := by
  intro cs
  induction cs with
  | nil => intro acc out _ hc; exact absurd hc (List.not_mem_nil c)
  | cons d cs' ih =>
    intro acc out h hc
    by_cases hd : d = c
    · subst hd
      simp only [processChildren, hgc, hcg, hn, hps, Bool.false_eq_true,
        if_false] at h
      exact processChildren_subset env recurse famplexId rootId hrecsub cs'
        _ out h _ (List.mem_append.mpr (Or.inr (List.mem_singleton.mpr rfl)))
    · have hc' : c ∈ cs' := by
        rcases List.mem_cons.mp hc with h' | h'
        · exact absurd h'.symm hd
        · exact h'
      cases hof : optListFalsy (env.children d) with
      | true =>
        cases hft : env.familyToGene d with
        | nil =>
          simp only [processChildren, hof, hft] at h
          cases hfam : env.families d with
          | none => simp only [hfam] at h; exact Except.noConfusion h
          | some famd =>
            simp only [hfam] at h
            cases hmid : recurse d
                (acc ++ [⟨"FPLX", get_famplex_id famd, "isa", "FPLX",
                  famplexId, rootId⟩]) with
            | error e => simp only [hmid] at h; exact Except.noConfusion h
            | ok mid =>
              simp only [hmid] at h
              exact ih mid out h hc'
        | cons g0 t =>
          cases t with
          | nil =>
            simp only [processChildren, hof, hft] at h
            cases hn0 : env.getName g0 with
            | none => simp only [hn0] at h; exact Except.noConfusion h
            | some n0 =>
              simp only [hn0] at h
              by_cases hps0 : is_pseudogene n0 = true
              · simp only [if_pos hps0] at h
                exact ih acc out h hc'
              · simp only [if_neg hps0] at h
                exact ih _ out h hc'
          | cons g2 t2 =>
            simp only [processChildren, hof, hft] at h
            cases hfam : env.families d with
            | none => simp only [hfam] at h; exact Except.noConfusion h
            | some famd =>
              simp only [hfam] at h
              cases hmid : recurse d
                  (acc ++ [⟨"FPLX", get_famplex_id famd, "isa", "FPLX",
                    famplexId, rootId⟩]) with
              | error e => simp only [hmid] at h; exact Except.noConfusion h
              | ok mid =>
                simp only [hmid] at h
                exact ih mid out h hc'
      | false =>
        simp only [processChildren, hof] at h
        cases hfam : env.families d with
        | none => simp only [hfam] at h; exact Except.noConfusion h
        | some famd =>
          simp only [hfam] at h
          cases hmid : recurse d
              (acc ++ [⟨"FPLX", get_famplex_id famd, "isa", "FPLX",
                famplexId, rootId⟩]) with
          | error e => simp only [hmid] at h; exact Except.noConfusion h
          | ok mid =>
            simp only [hmid] at h
            exact ih mid out h hc'

theorem processChildren_elides (env : Env) (c : String) (famc : Family)
    (hgc : optListFalsy (env.children c) = true)
    (hcg1 : (env.familyToGene c).length = 1)
    (halias : ∀ (d : String) (famd : Family), env.families d = some famd →
      get_famplex_id famd = get_famplex_id famc → d = c)
    (recurse : String → List RelTuple → Except RunError (List RelTuple))
    (hrec : ∀ root' acc' out', recurse root' acc' = .ok out' → root' ≠ c →
      elidedInv (get_famplex_id famc) acc' →
      elidedInv (get_famplex_id famc) out') :
    ∀ (cs : List String) (famplexId rootId : String)
      (acc out : List RelTuple),
      famplexId ≠ get_famplex_id famc →
      processChildren env recurse famplexId rootId cs acc = .ok out →
      elidedInv (get_famplex_id famc) acc →
      elidedInv (get_famplex_id famc) out := by
  intro cs
  induction cs with
  | nil =>
    intro famplexId rootId acc out _ h hacc
    injection h with h2
    exact h2 ▸ hacc
  | cons d cs' ih =>
    intro famplexId rootId acc out hfid h hacc
    cases hof : optListFalsy (env.children d) with
    | true =>
      cases hft : env.familyToGene d with
      | nil =>
        have hdc : d ≠ c := by
          intro hdc
          rw [hdc] at hft
          rw [hft] at hcg1
          simp at hcg1
        simp only [processChildren, hof, hft] at h
        cases hfam : env.families d with
        | none => simp only [hfam] at h; exact Except.noConfusion h
        | some famd =>
          have hfidd : get_famplex_id famd ≠ get_famplex_id famc := by
            intro heq
            exact hdc (halias d famd hfam heq)
          simp only [hfam] at h
          cases hmid : recurse d
              (acc ++ [⟨"FPLX", get_famplex_id famd, "isa", "FPLX",
                famplexId, rootId⟩]) with
          | error e => simp only [hmid] at h; exact Except.noConfusion h
          | ok mid =>
            simp only [hmid] at h
            have haccx := elidedInv_append (get_famplex_id famc) acc
              ⟨"FPLX", get_famplex_id famd, "isa", "FPLX", famplexId,
                rootId⟩ hacc ⟨fun _ => hfidd, hfid⟩
            exact ih famplexId rootId mid out hfid h
              (hrec d _ mid hmid hdc haccx)
      | cons g0 t =>
        cases t with
        | nil =>
          simp only [processChildren, hof, hft] at h
          cases hn0 : env.getName g0 with
          | none => simp only [hn0] at h; exact Except.noConfusion h
          | some n0 =>
            simp only [hn0] at h
            by_cases hps0 : is_pseudogene n0 = true
            · simp only [if_pos hps0] at h
              exact ih famplexId rootId acc out hfid h hacc
            · simp only [if_neg hps0] at h
              have haccx := elidedInv_append (get_famplex_id famc) acc
                ⟨"HGNC", n0, "isa", "FPLX", famplexId, rootId⟩ hacc
                ⟨fun hsrc => by simp at hsrc, hfid⟩
              exact ih famplexId rootId _ out hfid h haccx
        | cons g2 t2 =>
          have hdc : d ≠ c := by
            intro hdc
            rw [hdc] at hft
            rw [hft] at hcg1
            simp at hcg1
          simp only [processChildren, hof, hft] at h
          cases hfam : env.families d with
          | none => simp only [hfam] at h; exact Except.noConfusion h
          | some famd =>
            have hfidd : get_famplex_id famd ≠ get_famplex_id famc := by
              intro heq
              exact hdc (halias d famd hfam heq)
            simp only [hfam] at h
            cases hmid : recurse d
                (acc ++ [⟨"FPLX", get_famplex_id famd, "isa", "FPLX",
                  famplexId, rootId⟩]) with
            | error e => simp only [hmid] at h; exact Except.noConfusion h
            | ok mid =>
              simp only [hmid] at h
              have haccx := elidedInv_append (get_famplex_id famc) acc
                ⟨"FPLX", get_famplex_id famd, "isa", "FPLX", famplexId,
                  rootId⟩ hacc ⟨fun _ => hfidd, hfid⟩
              exact ih famplexId rootId mid out hfid h
                (hrec d _ mid hmid hdc haccx)
    | false =>
      have hdc : d ≠ c := by
        intro hdc
        rw [hdc] at hof
        rw [hgc] at hof
        exact Bool.noConfusion hof
      simp only [processChildren, hof] at h
      cases hfam : env.families d with
      | none => simp only [hfam] at h; exact Except.noConfusion h
      | some famd =>
        have hfidd : get_famplex_id famd ≠ get_famplex_id famc := by
          intro heq
          exact hdc (halias d famd hfam heq)
        simp only [hfam] at h
        cases hmid : recurse d
            (acc ++ [⟨"FPLX", get_famplex_id famd, "isa", "FPLX",
              famplexId, rootId⟩]) with
        | error e => simp only [hmid] at h; exact Except.noConfusion h
        | ok mid =>
          simp only [hmid] at h
          have haccx := elidedInv_append (get_famplex_id famc) acc
            ⟨"FPLX", get_famplex_id famd, "isa", "FPLX", famplexId,
              rootId⟩ hacc ⟨fun _ => hfidd, hfid⟩
          exact ih famplexId rootId mid out hfid h
            (hrec d _ mid hmid hdc haccx)

theorem get_relations_from_root_elides (env : Env) (c : String)
    (famc : Family)
    (hgc : optListFalsy (env.children c) = true)
    (hcg1 : (env.familyToGene c).length = 1)
    (halias : ∀ (d : String) (famd : Family), env.families d = some famd →
      get_famplex_id famd = get_famplex_id famc → d = c) :
    ∀ (fuel : Nat) (rootId : String) (acc out : List RelTuple),
      get_relations_from_root env fuel rootId acc = .ok out →
      rootId ≠ c →
      elidedInv (get_famplex_id famc) acc →
      elidedInv (get_famplex_id famc) out := by
  intro fuel
  induction fuel with
  | zero => intro rootId acc out h; exact Except.noConfusion h
  | succ f ih =>
    intro rootId acc out h hrc hacc
    cases hfam : env.families rootId with
    | none => simp [get_relations_from_root, hfam] at h
    | some famr =>
      have hfidr : get_famplex_id famr ≠ get_famplex_id famc := by
        intro heq
        exact hrc (halias rootId famr hfam heq)
      simp only [get_relations_from_root, hfam] at h
      cases hpg : processGenes env (get_famplex_id famr) rootId
          (env.familyToGene rootId) acc with
      | error e => simp only [hpg] at h; exact Except.noConfusion h
      | ok out1 =>
        simp only [hpg] at h
        have hinv1 : elidedInv (get_famplex_id famc) out1 := by
          intro r hr
          rcases processGenes_shape env (get_famplex_id famr) rootId _ acc
              out1 hpg r hr with hra | ⟨h1, _, h3, _⟩
          · exact hacc r hra
          · refine ⟨fun hsrc => ?_, h3 ▸ hfidr⟩
            rw [h1] at hsrc
            exact absurd hsrc (by decide)
        cases hch : env.children rootId with
        | none =>
          simp only [hch] at h
          injection h with h2
          exact h2 ▸ hinv1
        | some cs =>
          simp only [hch] at h
          exact processChildren_elides env c famc hgc hcg1 halias
            (get_relations_from_root env f)
            (fun root' acc' out' hm hne hi => ih root' acc' out' hm hne hi)
            cs (get_famplex_id famr) rootId out1 out hfidr h hinv1

/-- Every relation of `l` has as its target the canonical famplex id of
its own provenance family: relations are emitted at a node with
`famplex_id = get_famplex_id(families[root_id])` as target and that same
`root_id` as provenance, so the flattener maintains this invariant. -/
def targetCanonical (env : Env) (l : List RelTuple) : Prop :=
  ∀ r ∈ l, ∀ fam : Family, env.families r.rootId = some fam →
    r.tgtId = get_famplex_id fam

theorem targetCanonical_append (env : Env) (l : List RelTuple) (x : RelTuple)
    (hl : targetCanonical env l)
    (hx : ∀ fam : Family, env.families x.rootId = some fam →
      x.tgtId = get_famplex_id fam) :
    targetCanonical env (l ++ [x]) := by
  intro r hr
  rcases List.mem_append.mp hr with h | h
  · exact hl r h
  · rcases List.mem_singleton.mp h with rfl
    exact hx

theorem processGenes_targetCanonical (env : Env) (famplexId rootId : String)
    (gs : List String) (acc out : List RelTuple)
    (h : processGenes env famplexId rootId gs acc = .ok out)
    (hroot : ∀ fam : Family, env.families rootId = some fam →
      famplexId = get_famplex_id fam)
    (hacc : targetCanonical env acc) : targetCanonical env out := by
  intro r hr fam hfam
  rcases processGenes_shape env famplexId rootId gs acc out h r hr with
    hra | ⟨_, _, h3, h4⟩
  · exact hacc r hra fam hfam
  · rw [h3]
    exact hroot fam (by rw [← h4]; exact hfam)

theorem processChildren_targetCanonical (env : Env)
    (recurse : String → List RelTuple → Except RunError (List RelTuple))
    (hrec : ∀ root' acc' out', recurse root' acc' = .ok out' →
      targetCanonical env acc' → targetCanonical env out') :
    ∀ (cs : List String) (famplexId rootId : String)
      (acc out : List RelTuple),
      (∀ fam : Family, env.families rootId = some fam →
        famplexId = get_famplex_id fam) →
      processChildren env recurse famplexId rootId cs acc = .ok out →
      targetCanonical env acc → targetCanonical env out := by
  intro cs
  induction cs with
  | nil =>
    intro famplexId rootId acc out _ h hacc
    injection h with h2
    exact h2 ▸ hacc
  | cons d cs' ih =>
    intro famplexId rootId acc out hroot h hacc
    cases hof : optListFalsy (env.children d) with
    | true =>
      cases hft : env.familyToGene d with
      | nil =>
        simp only [processChildren, hof, hft] at h
        cases hfam : env.families d with
        | none => simp only [hfam] at h; exact Except.noConfusion h
        | some famd =>
          simp only [hfam] at h
          cases hmid : recurse d
              (acc ++ [⟨"FPLX", get_famplex_id famd, "isa", "FPLX",
                famplexId, rootId⟩]) with
          | error e => simp only [hmid] at h; exact Except.noConfusion h
          | ok mid =>
            simp only [hmid] at h
            exact ih famplexId rootId mid out hroot h
              (hrec d _ mid hmid
                (targetCanonical_append env acc _ hacc hroot))
      | cons g0 t =>
        cases t with
        | nil =>
          simp only [processChildren, hof, hft] at h
          cases hn0 : env.getName g0 with
          | none => simp only [hn0] at h; exact Except.noConfusion h
          | some n0 =>
            simp only [hn0] at h
            by_cases hps0 : is_pseudogene n0 = true
            · simp only [if_pos hps0] at h
              exact ih famplexId rootId acc out hroot h hacc
            · simp only [if_neg hps0] at h
              exact ih famplexId rootId _ out hroot h
                (targetCanonical_append env acc _ hacc hroot)
        | cons g2 t2 =>
          simp only [processChildren, hof, hft] at h
          cases hfam : env.families d with
          | none => simp only [hfam] at h; exact Except.noConfusion h
          | some famd =>
            simp only [hfam] at h
            cases hmid : recurse d
                (acc ++ [⟨"FPLX", get_famplex_id famd, "isa", "FPLX",
                  famplexId, rootId⟩]) with
            | error e => simp only [hmid] at h; exact Except.noConfusion h
            | ok mid =>
              simp only [hmid] at h
              exact ih famplexId rootId mid out hroot h
                (hrec d _ mid hmid
                  (targetCanonical_append env acc _ hacc hroot))
    | false =>
      simp only [processChildren, hof] at h
      cases hfam : env.families d with
      | none => simp only [hfam] at h; exact Except.noConfusion h
      | some famd =>
        simp only [hfam] at h
        cases hmid : recurse d
            (acc ++ [⟨"FPLX", get_famplex_id famd, "isa", "FPLX",
              famplexId, rootId⟩]) with
        | error e => simp only [hmid] at h; exact Except.noConfusion h
        | ok mid =>
          simp only [hmid] at h
          exact ih famplexId rootId mid out hroot h
            (hrec d _ mid hmid
              (targetCanonical_append env acc _ hacc hroot))

theorem get_relations_from_root_targetCanonical (env : Env) :
    ∀ (fuel : Nat) (rootId : String) (acc out : List RelTuple),
      get_relations_from_root env fuel rootId acc = .ok out →
      targetCanonical env acc → targetCanonical env out := by
  intro fuel
  induction fuel with
  | zero => intro rootId acc out h; exact Except.noConfusion h
  | succ f ih =>
    intro rootId acc out h hacc
    cases hfam : env.families rootId with
    | none => simp [get_relations_from_root, hfam] at h
    | some famr =>
      have hroot : ∀ fam : Family, env.families rootId = some fam →
          get_famplex_id famr = get_famplex_id fam := by
        intro fam hf
        rw [Option.some.inj (hfam.symm.trans hf)]
      simp only [get_relations_from_root, hfam] at h
      cases hpg : processGenes env (get_famplex_id famr) rootId
          (env.familyToGene rootId) acc with
      | error e => simp only [hpg] at h; exact Except.noConfusion h
      | ok out1 =>
        simp only [hpg] at h
        have hinv1 : targetCanonical env out1 :=
          processGenes_targetCanonical env (get_famplex_id famr) rootId _
            acc out1 hpg hroot hacc
        cases hch : env.children rootId with
        | none =>
          simp only [hch] at h
          injection h with h2
          exact h2 ▸ hinv1
        | some cs =>
          simp only [hch] at h
          exact processChildren_targetCanonical env
            (get_relations_from_root env f)
            (fun a b c hm hi => ih a b c hm hi)
            cs (get_famplex_id famr) rootId out1 out hroot h hinv1

theorem mainRelationsRaw_targetCanonical (env : Env) (fuel : Nat) :
    ∀ (roots : List String) (out : List RelTuple),
      mainRelationsRaw env fuel roots = .ok out →
      targetCanonical env out := by
  intro roots
  induction roots with
  | nil =>
    intro out h
    injection h with h2
    intro r hr
    rw [← h2] at hr
    exact absurd hr (List.not_mem_nil r)
  | cons root rest ih =>
    intro out h
    cases hg : get_relations_from_root env fuel root [] with
    | error e =>
      simp only [mainRelationsRaw, hg] at h
      exact Except.noConfusion h
    | ok rs =>
      simp only [mainRelationsRaw, hg] at h
      cases hrest : mainRelationsRaw env fuel rest with
      | error e =>
        simp only [hrest] at h
        exact Except.noConfusion h
      | ok rest' =>
        simp only [hrest] at h
        injection h with h2
        intro r hr fam hfam
        rw [← h2] at hr
        rcases List.mem_append.mp hr with h3 | h3
        · exact get_relations_from_root_targetCanonical env fuel root [] rs
            hg (fun r' hr' => absurd hr' (List.not_mem_nil r')) r h3 fam hfam
        · exact ih rest' hrest r h3 fam hfam

theorem equivRows_shape (env : Env) :
    ∀ (l : List Int) (eqs : List (String × String × String)),
      equivRows env l = .ok eqs →
      ∀ row ∈ eqs, ∃ fid ∈ l, ∃ fam : Family,
        env.families (intToStr fid) = some fam ∧
        row = ("HGNC_GROUP", intToStr fid, get_famplex_id fam) := by
  intro l
  induction l with
  | nil =>
    intro eqs h row hrow
    injection h with h2
    rw [← h2] at hrow
    exact absurd hrow (List.not_mem_nil row)
  | cons fid rest ih =>
    intro eqs h row hrow
    cases hfam : env.families (intToStr fid) with
    | none =>
      simp only [equivRows, hfam] at h
      exact Except.noConfusion h
    | some fam =>
      simp only [equivRows, hfam] at h
      cases hrest : equivRows env rest with
      | error e =>
        simp only [hrest] at h
        exact Except.noConfusion h
      | ok l' =>
        simp only [hrest] at h
        injection h with h2
        rw [← h2] at hrow
        rcases List.mem_cons.mp hrow with rfl | hrow'
        · exact ⟨fid, List.mem_cons_self fid rest, fam, hfam, rfl⟩
        · obtain ⟨fid', hfid', fam', hfam', hrow2⟩ := ih l' hrest row hrow'
          exact ⟨fid', List.mem_cons_of_mem fid hfid', fam', hfam', hrow2⟩

theorem processChildren_pseudo_skip (env : Env)
    (recurse : String → List RelTuple → Except RunError (List RelTuple))
    (famplexId rootId : String) (c g n : String)
    (hgc : optListFalsy (env.children c) = true)
    (hcg : env.familyToGene c = [g])
    (hn : env.getName g = some n)
    (hps : is_pseudogene n = true) :
    ∀ (cs₁ cs₂ : List String) (acc : List RelTuple),
      processChildren env recurse famplexId rootId (cs₁ ++ c :: cs₂) acc =
        processChildren env recurse famplexId rootId (cs₁ ++ cs₂) acc := by
  intro cs₁
  induction cs₁ with
  | nil =>
    intro cs₂ acc
    simp [processChildren, hgc, hcg, hn, hps]
  | cons d cs₁' ih =>
    intro cs₂ acc
    simp only [List.cons_append]
    cases hof : optListFalsy (env.children d) with
    | true =>
      cases hft : env.familyToGene d with
      | nil =>
        simp only [processChildren, hof, hft]
        cases hfam : env.families d with
        | none => simp only [hfam]
        | some famd =>
          simp only [hfam]
          cases hmid : recurse d
              (acc ++ [⟨"FPLX", get_famplex_id famd, "isa", "FPLX",
                famplexId, rootId⟩]) with
          | error e => simp only [hmid]
          | ok mid =>
            simp only [hmid]
            exact ih cs₂ mid
      | cons g0 t =>
        cases t with
        | nil =>
          simp only [processChildren, hof, hft]
          cases hn0 : env.getName g0 with
          | none => simp only [hn0]
          | some n0 =>
            simp only [hn0]
            by_cases hps0 : is_pseudogene n0 = true
            · simp only [if_pos hps0]
              exact ih cs₂ acc
            · simp only [if_neg hps0]
              exact ih cs₂ _
        | cons g2 t2 =>
          simp only [processChildren, hof, hft]
          cases hfam : env.families d with
          | none => simp only [hfam]
          | some famd =>
            simp only [hfam]
            cases hmid : recurse d
                (acc ++ [⟨"FPLX", get_famplex_id famd, "isa", "FPLX",
                  famplexId, rootId⟩]) with
            | error e => simp only [hmid]
            | ok mid =>
              simp only [hmid]
              exact ih cs₂ mid
    | false =>
      simp only [processChildren, hof]
      cases hfam : env.families d with
      | none => simp only [hfam]
      | some famd =>
        simp only [hfam]
        cases hmid : recurse d
            (acc ++ [⟨"FPLX", get_famplex_id famd, "isa", "FPLX",
              famplexId, rootId⟩]) with
        | error e => simp only [hmid]
        | ok mid =>
          simp only [hmid]
          exact ih cs₂ mid

/-- C3: let `R` be a traversed root with metadata `famR` (canonical id
`C = get_famplex_id famR`) and let `c` be any of its children (child
list `cs₁ ++ c :: cs₂`) with falsy children of its own and exactly one
member gene `g`, resolving to `n`.  Then: (collapse) if the traversal
succeeds and `n` is not a pseudogene, the relation
`(HGNC, n, isa, FPLX, C, R)` is in the output; (skip) if `n` *is* a
pseudogene, the child loop of `R` — run with the actual recursion
function — computes exactly what it would compute with `c` deleted from
the child list, for every accumulator: the child is skipped with a
warning and contributes nothing; and (elision) no relation anywhere in
a successful output — including those emitted while recursing into
other children, to any depth — has `c`'s canonical id as an FPLX source
or as a target, provided no other family record shares `c`'s canonical
id (without that proviso "appears" is not well-defined, since ids are
the only thing persisted). -/
theorem C3_collapse_rule (env : Env) (fuel : Nat) (R : String)
    (famR famc : Family) (cs₁ cs₂ : List String) (c g n : String)
    (out : List RelTuple)
    (hfam : env.families R = some famR)
    (hch : env.children R = some (cs₁ ++ c :: cs₂))
    (_hfc : env.families c = some famc)
    (hgc : optListFalsy (env.children c) = true)
    (hcg : env.familyToGene c = [g])
    (hn : env.getName g = some n)
    (hok : get_relations_from_root env (fuel + 1) R [] = .ok out)
    (halias : ∀ (d : String) (famd : Family), env.families d = some famd →
      get_famplex_id famd = get_famplex_id famc → d = c)
    (hRc : R ≠ c) :
    (is_pseudogene n = false →
      (⟨"HGNC", n, "isa", "FPLX", get_famplex_id famR, R⟩ : RelTuple) ∈ out) ∧
    (is_pseudogene n = true →
      ∀ acc : List RelTuple,
        processChildren env (get_relations_from_root env fuel)
            (get_famplex_id famR) R (cs₁ ++ c :: cs₂) acc =
          processChildren env (get_relations_from_root env fuel)
            (get_famplex_id famR) R (cs₁ ++ cs₂) acc) ∧
    ∀ r ∈ out, (r.srcNs = "FPLX" → r.srcId ≠ get_famplex_id famc) ∧
      r.tgtId ≠ get_famplex_id famc := by
  refine ⟨?_, ?_, ?_⟩
  · intro hps
    simp only [get_relations_from_root, hfam] at hok
    cases hpg : processGenes env (get_famplex_id famR) R
        (env.familyToGene R) [] with
    | error e => simp only [hpg] at hok; exact Except.noConfusion hok
    | ok out1 =>
      simp only [hpg, hch] at hok
      exact processChildren_emits env (get_relations_from_root env fuel)
        (get_famplex_id famR) R c g n hgc hcg hn hps
        (fun a b c' hm => get_relations_from_root_subset env fuel a b c' hm)
        (cs₁ ++ c :: cs₂) out1 out hok
        (List.mem_append_right cs₁ (List.mem_cons_self c cs₂))
  · intro hps acc
    exact processChildren_pseudo_skip env (get_relations_from_root env fuel)
      (get_famplex_id famR) R c g n hgc hcg hn hps cs₁ cs₂ acc
  · exact get_relations_from_root_elides env c famc hgc
      (by rw [hcg]; rfl) halias (fuel + 1) R [] out hok hRc
      (fun r hr => absurd hr (List.not_mem_nil r))

/-- C3 (witness): the collapse-rule theorem applied to `testEnv`, whose
root `1` has the single-gene childless child `2`. -/
theorem C3_collapse_rule_witness :
    (is_pseudogene "G3" = false →
      (⟨"HGNC", "G3", "isa", "FPLX", get_famplex_id ⟨"R", ""⟩, "1"⟩ :
        RelTuple) ∈ [(⟨"HGNC", "G3", "isa", "FPLX", "R", "1"⟩ : RelTuple)]) ∧
    (is_pseudogene "G3" = true →
      ∀ acc : List RelTuple,
        processChildren testEnv (get_relations_from_root testEnv 4)
            (get_famplex_id ⟨"R", ""⟩) "1" ([] ++ "2" :: []) acc =
          processChildren testEnv (get_relations_from_root testEnv 4)
            (get_famplex_id ⟨"R", ""⟩) "1" ([] ++ []) acc) ∧
    ∀ r ∈ [(⟨"HGNC", "G3", "isa", "FPLX", "R", "1"⟩ : RelTuple)],
      (r.srcNs = "FPLX" → r.srcId ≠ get_famplex_id ⟨"C2", ""⟩) ∧
        r.tgtId ≠ get_famplex_id ⟨"C2", ""⟩ :=
  C3_collapse_rule testEnv 4 "1" ⟨"R", ""⟩ ⟨"C2", ""⟩ [] [] "2" "g3" "G3"
    [⟨"HGNC", "G3", "isa", "FPLX", "R", "1"⟩]
    (by decide) (by decide) (by decide) (by decide) (by decide) (by decide)
    rfl
    (by
      intro d famd hd hfid
      by_cases h2 : d = "2"
      · exact h2
      · exfalso
        by_cases h1 : d = "1"
        · subst h1
          have hfd : famd = ⟨"R", ""⟩ := by
            simpa [testEnv] using hd.symm
          rw [hfd] at hfid
          exact absurd hfid (by decide)
        · rw [show testEnv.families d = none from by
            simp [testEnv, h1, h2]] at hd
          exact Option.noConfusion hd)
    (by decide)

/-- C1 (amended): a derived family `y` is marked redundant iff one of
the positional pairs — touched pre-existing families and touched derived
families, each sorted by an unspecified representative member and zipped
— has `y` as its derived side and equal member sets.  Exactly the marked
families are excluded from the final relations; every marked family is
absent from the final entities; and no equivalence row carries a marked
family's canonical id: every relation's target is the canonical id of
its provenance family (`targetCanonical`, an invariant of the
flattener), so a provenance surviving the filter has a non-redundant
canonical id (for provenance ids in canonical decimal form, as HGNC
group ids are).  (A set-identical pre-existing family does not by itself
guarantee exclusion: only a pair aligned by the positional zip does —
see `C1_counterexample`.) -/
theorem C1_redundancy_by_pairing (env : Env) (rels : List RelTuple)
    (store : List StoreRow) (enumCov enumHgnc : List String)
    (repF repH : String → String) (entEnum : List String)
    (tr : List String) (finalRels : List RelTuple)
    (ids eqEnum : List Int) (eqs : List (String × String × String))
    (htr : tr = find_overlaps rels store enumCov enumHgnc repF repH)
    (hfin : finalRels = rels.filter (fun r => decide (r.tgtId ∉ tr)))
    (hent : isSetEnum entEnum (finalRels.map (fun r => r.tgtId)) = true)
    (hshape : targetCanonical env rels)
    (hnorm : ∀ r ∈ rels, ∀ i : Int, pyInt r.rootId = some i →
      intToStr i = r.rootId)
    (hids : relationRootIds finalRels = .ok ids)
    (heqen : isSetEnum eqEnum ids = true)
    (heqs : equivRows env (List.insertionSort intLeP eqEnum) = .ok eqs) :
    (∀ y, y ∈ tr ↔
      ∃ p ∈ overlapPairs rels store enumCov enumHgnc repF repH,
        listSetEq p.1.2 p.2.2 = true ∧ p.2.1 = y) ∧
      (∀ r ∈ finalRels, r.tgtId ∉ tr) ∧
      (∀ r ∈ rels, r.tgtId ∉ tr → r ∈ finalRels) ∧
      (∀ y ∈ tr, y ∉ List.insertionSort strLeP entEnum) ∧
      ∀ y ∈ tr, ∀ row ∈ eqs, row.2.2 ≠ y := by
  obtain ⟨_, hentmem⟩ := isSetEnum_spec hent
  have hmem2 : ∀ r ∈ finalRels, r.tgtId ∉ tr := by
    intro r hr
    rw [hfin] at hr
    simpa using (List.mem_filter.mp hr).2
  refine ⟨?_, hmem2, ?_, ?_, ?_⟩
  · intro y
    rw [htr, find_overlaps]
    constructor
    · intro hy
      obtain ⟨p, hpf, hpy⟩ := List.mem_map.mp hy
      exact ⟨p, List.mem_of_mem_filter hpf,
        (List.mem_filter.mp hpf).2, hpy⟩
    · rintro ⟨p, hp, hφ, hψ⟩
      exact List.mem_map.mpr ⟨p, List.mem_filter.mpr ⟨hp, hφ⟩, hψ⟩
  · intro r hr hnot
    rw [hfin]
    exact List.mem_filter.mpr ⟨hr, by simpa using hnot⟩
  · intro y hy hsort
    have hyent : y ∈ entEnum := (List.mem_insertionSort strLeP).mp hsort
    obtain ⟨r, hrf, hry⟩ := List.mem_map.mp ((hentmem y).mp hyent)
    exact (hmem2 r hrf) (hry ▸ hy)
  · intro y hy row hrow
    obtain ⟨fid, hfidmem, fam, hfam, hroweq⟩ :=
      equivRows_shape env _ eqs heqs row hrow
    have hfid2 : fid ∈ eqEnum := (List.mem_insertionSort intLeP).mp hfidmem
    obtain ⟨_, hqmem⟩ := isSetEnum_spec heqen
    obtain ⟨r, hrfin, hpyi⟩ :=
      (relationRootIds_mem finalRels ids hids fid).mp ((hqmem fid).mp hfid2)
    have hrrels : r ∈ rels := by
      rw [hfin] at hrfin
      exact (List.mem_filter.mp hrfin).1
    have hnotr : r.tgtId ∉ tr := hmem2 r hrfin
    have hstr : intToStr fid = r.rootId := hnorm r hrrels fid hpyi
    rw [hstr] at hfam
    have htgt : r.tgtId = get_famplex_id fam := hshape r hrrels fam hfam
    rw [hroweq]
    intro hEq
    exact hnotr (by rw [htgt]; rw [show get_famplex_id fam = y from hEq]; exact hy)

/-- C1 (witness): the pairing theorem applied to the concrete run of
`envC1` against an empty store (no pair, nothing excluded, every
relation retained, equivalences for both surviving roots). -/
theorem C1_redundancy_by_pairing_witness :
    (∀ y, y ∈ find_overlaps rawC1 [] [] [] repFC1 repHC1 ↔
      ∃ p ∈ overlapPairs rawC1 [] [] [] repFC1 repHC1,
        listSetEq p.1.2 p.2.2 = true ∧ p.2.1 = y) ∧
      (∀ r ∈ rawC1.filter (fun r =>
          decide (r.tgtId ∉ find_overlaps rawC1 [] [] [] repFC1 repHC1)),
        r.tgtId ∉ find_overlaps rawC1 [] [] [] repFC1 repHC1) ∧
      (∀ r ∈ rawC1,
        r.tgtId ∉ find_overlaps rawC1 [] [] [] repFC1 repHC1 →
        r ∈ rawC1.filter (fun r =>
          decide (r.tgtId ∉ find_overlaps rawC1 [] [] [] repFC1 repHC1))) ∧
      (∀ y ∈ find_overlaps rawC1 [] [] [] repFC1 repHC1,
        y ∉ List.insertionSort strLeP ["DY", "DZ"]) ∧
      ∀ y ∈ find_overlaps rawC1 [] [] [] repFC1 repHC1,
        ∀ row ∈ [(("HGNC_GROUP", "1", "DZ") : String × String × String),
                 ("HGNC_GROUP", "2", "DY")],
          row.2.2 ≠ y :=
  C1_redundancy_by_pairing envC1 rawC1 [] [] [] repFC1 repHC1 ["DY", "DZ"]
    (find_overlaps rawC1 [] [] [] repFC1 repHC1)
    (rawC1.filter (fun r =>
      decide (r.tgtId ∉ find_overlaps rawC1 [] [] [] repFC1 repHC1)))
    [1, 1, 2, 2] [2, 1]
    [("HGNC_GROUP", "1", "DZ"), ("HGNC_GROUP", "2", "DY")]
    rfl rfl (by decide)
    (mainRelationsRaw_targetCanonical envC1 9 ["1", "2"] rawC1 rfl)
    (by
      intro r hr i hpi
      have hcase : r.rootId = "1" ∨ r.rootId = "2" := by
        simp only [rawC1, List.mem_cons, List.not_mem_nil, or_false] at hr
        rcases hr with rfl | rfl | rfl | rfl
        · exact Or.inl rfl
        · exact Or.inl rfl
        · exact Or.inr rfl
        · exact Or.inr rfl
      rcases hcase with h | h
      · rw [h] at hpi
        rw [show pyInt "1" = some 1 from by decide] at hpi
        rw [← Option.some.inj hpi, h]
        decide
      · rw [h] at hpi
        rw [show pyInt "2" = some 2 from by decide] at hpi
        rw [← Option.some.inj hpi, h]
        decide)
    rfl (by decide) rfl
